import Mathlib

/-!
Verification development for the `linestring_simplifier` library.

The Python source operates on GeoJSON LineStrings: lists of (lon, lat)
float pairs.  The spherical-geometry primitives (`haversine_distance`,
`calculate_bearing`, `point_to_line_distance`) compute transcendental
functions of the coordinates; every claim under study is about the control
flow and index bookkeeping of the algorithms, not about trigonometry, so we
embed the algorithms over an abstract point type `α` together with abstract
primitives `bearing : α → α → ℚ` (the initial bearing between two points)
and `dist : α → α → α → ℚ` (the point-to-segment cross-track distance).
Real numbers produced by the primitives are modelled as rationals.
Theorems quantify over all choices of these primitives, hence cover the
concrete floating-point instances.

`dp_recursive` in `algorithms.py` can fail to terminate (for a negative
tolerance on degenerate input the split index can equal `start`, repeating
the same call); we model it with structural fuel, `none` standing for
divergence, and everything downstream of it is `Option`-valued in the same
way.
-/

attribute [local semireducible] Rat.mul Rat.inv Rat.add Rat.sub

/-- One pass of the source loop `while change > 180: change -= 360`
(`calculate_bearing_change` in `geometry_utils.py`).  The loop runs a
number of iterations computable from its input, which we pass as
structural fuel so that the definition stays kernel-reducible. -/
def subLoop360 : ℕ → ℚ → ℚ
  | 0, c => c
  | k + 1, c => if 180 < c then subLoop360 k (c - 360) else c

/-- One pass of the source loop `while change < -180: change += 360`. -/
def addLoop360 : ℕ → ℚ → ℚ
  | 0, c => c
  | k + 1, c => if c < -180 then addLoop360 k (c + 360) else c

/-- `calculate_bearing_change` from `geometry_utils.py`: the difference
`bearing2 - bearing1` normalized into (-180, 180] by the two while loops.
The fuel passed to each loop is an upper bound on its iteration count. -/
def calculate_bearing_change (bearing1 bearing2 : ℚ) : ℚ :=
  let change := bearing2 - bearing1
  let c1 := subLoop360 (((change - 180) / 360).ceil.toNat + 1) change
  addLoop360 (((-180 - c1) / 360).ceil.toNat + 1) c1

/-- Python `sorted(list(s))` for a set of natural-number indices: the
ascending enumeration of the set.  Implemented by filtering an initial
segment of `ℕ` (so that it is kernel-reducible); `sortedList_eq_sort`
below identifies it with Mathlib's `Finset.sort`. -/
def sortedList (s : Finset ℕ) : List ℕ :=
  (List.range (s.sup id + 1)).filter (fun i => decide (i ∈ s))

variable {α : Type} [Inhabited α]

/-- `SimplificationAlgorithms.detect_corners` from `algorithms.py`.
`bearing p q` abstracts `calculate_bearing(p.lat, p.lon, q.lat, q.lon)`.
For at most two coordinates the source returns `[0, len - 1]`; otherwise it
returns `[0]`, then every interior index whose absolute bearing change is
at least `min_angle_change`, then the last index. -/
def detect_corners (bearing : α → α → ℚ) (coordinates : List α)
    (min_angle_change : ℚ) : List ℕ :=
  let n := coordinates.length
  if n ≤ 2 then [0, n - 1]
  else
    let c := fun i => coordinates.getD i default
    [0] ++ ((List.range' 1 (n - 2)).filter (fun i =>
      let bearing_before := bearing (c (i - 1)) (c i)
      let bearing_after := bearing (c i) (c (i + 1))
      decide (min_angle_change ≤ |calculate_bearing_change bearing_before bearing_after|)))
      ++ [n - 1]

/-- `SimplificationAlgorithms.detect_curves` from `algorithms.py`.
When `len(coordinates) <= window_size * 2` the source returns
`list(range(len(coordinates)))`.  Otherwise, for each `i` in
`range(window_size, len - window_size)` it sums the absolute bearing
changes over `j` in `range(i - window_size + 1, i + window_size)`
(skipping `j = 0`, which has no previous bearing, and any `j` with
`j + 1 >= len`), and flags `i` when the total reaches `curve_threshold`. -/
def detect_curves (bearing : α → α → ℚ) (coordinates : List α)
    (window_size : ℕ) (curve_threshold : ℚ) : List ℕ :=
  let n := coordinates.length
  if n ≤ window_size * 2 then List.range n
  else
    let c := fun i => coordinates.getD i default
    (List.range' window_size (n - 2 * window_size)).filter (fun i =>
      let total_change := ((List.range' (i - window_size + 1) (2 * window_size - 1)).foldl
        (fun total j =>
          if j + 1 < n then
            let bearing1 := if 0 < j then bearing (c (j - 1)) (c j) else 0
            let bearing2 := bearing (c j) (c (j + 1))
            if 0 < j then total + |calculate_bearing_change bearing1 bearing2| else total
          else total) 0)
      decide (curve_threshold ≤ total_change))

/-- The `for i in range(start + 1, end)` maximum-distance scan inside
`dp_recursive`: fold the strict-improvement update
`if distance > max_distance` over the candidate indices, starting from
`(max_distance, max_index) = (0, start)`. -/
def maxLoop (f : ℕ → ℚ) : List ℕ → ℚ × ℕ → ℚ × ℕ
  | [], acc => acc
  | i :: rest, acc => maxLoop f rest (if acc.1 < f i then (f i, i) else acc)

/-- `dp_recursive` from `douglas_peucker` in `algorithms.py`, over the
distance table `D i s e` = distance of point `i` to the segment `(s, e)`.
Intervals of length at most 1 collapse to their endpoints; otherwise the
interior point of maximum distance is found (first index wins ties, since
the update is strict) and, when the maximum exceeds the tolerance, the two
halves are computed and unioned.  The structural fuel models the call
stack; `none` is divergence. -/
def dpRec (D : ℕ → ℕ → ℕ → ℚ) (tolerance : ℚ) : ℕ → ℕ → ℕ → Option (Finset ℕ)
  | 0, _, _ => none
  | fuel + 1, start, stop =>
    if stop - start ≤ 1 then some {start, stop}
    else
      let m := maxLoop (fun i => D i start stop) (List.range' (start + 1) (stop - start - 1)) (0, start)
      if tolerance < m.1 then
        match dpRec D tolerance fuel start m.2, dpRec D tolerance fuel m.2 stop with
        | some left_points, some right_points => some (left_points ∪ right_points)
        | _, _ => none
      else some {start, stop}

/-- The distance table used by `douglas_peucker`:
`point_to_line_distance(coordinates[i], coordinates[s], coordinates[e])`,
with the primitive abstracted as `dist`. -/
def dpDist (dist : α → α → α → ℚ) (coordinates : List α) : ℕ → ℕ → ℕ → ℚ :=
  fun i s e => dist (coordinates.getD i default) (coordinates.getD s default)
    (coordinates.getD e default)

/-- `SimplificationAlgorithms.douglas_peucker` from `algorithms.py`:
for at most 2 points return all indices, else run `dp_recursive` over
`[0, len - 1]` and return the sorted list of retained indices. -/
def douglas_peucker (dist : α → α → α → ℚ) (coordinates : List α)
    (tolerance : ℚ) : Option (List ℕ) :=
  if coordinates.length ≤ 2 then some (List.range coordinates.length)
  else
    (dpRec (dpDist dist coordinates) tolerance coordinates.length 0
      (coordinates.length - 1)).map sortedList

/-- The critical-point set built in steps 2-4 of `adaptive_simplification`:
start and end indices, plus the default-threshold corners when
`preserve_corners`, plus the default-parameter curve points when
`preserve_curves`. -/
def adaptiveCritical (bearing : α → α → ℚ) (coordinates : List α)
    (preserve_corners preserve_curves : Bool) : Finset ℕ :=
  let base : Finset ℕ := {0, coordinates.length - 1}
  let withCorners :=
    if preserve_corners then base ∪ (detect_corners bearing coordinates 30).toFinset else base
  if preserve_curves then withCorners ∪ (detect_curves bearing coordinates 5 45).toFinset
  else withCorners

/-- The `for tolerance in [...]` fill loop of `adaptive_simplification`:
run Douglas-Peucker at each tolerance in turn; at the first tolerance whose
result unioned with the critical set fits within `max_points`, add up to
`remaining_budget` of the non-critical Douglas-Peucker indices in ascending
order and stop.  If no tolerance fits, the critical set is returned
unchanged. -/
def fillStage (dist : α → α → α → ℚ) (coordinates : List α)
    (max_points remaining_budget : ℕ) (critical_points : Finset ℕ) :
    List ℚ → Option (Finset ℕ)
  | [] => some critical_points
  | tolerance :: rest =>
    match douglas_peucker dist coordinates tolerance with
    | none => none
    | some dp_points =>
      let all_points := critical_points ∪ dp_points.toFinset
      if all_points.card ≤ max_points then
        let additional_points := dp_points.toFinset \ critical_points
        let points_to_add := min remaining_budget additional_points.card
        some (if 0 < points_to_add then
          critical_points ∪ ((sortedList additional_points).take points_to_add).toFinset
        else critical_points)
      else fillStage dist coordinates max_points remaining_budget critical_points rest

/-- The tolerance schedule `[tolerance_start * (0.8 ** i) for i in range(20)]`
with `tolerance_start = 10.0` metres; the float `0.8` is modelled as `8/10`. -/
def toleranceSchedule : List ℚ :=
  (List.range 20).map (fun i => (10 : ℚ) * (8 / 10) ^ i)

/-- `SimplificationAlgorithms.adaptive_simplification` from `algorithms.py`.
Returns the sorted kept-index list and the sufficiency flag, or `none` when
an inner Douglas-Peucker call diverges.  Branches: identity when the input
already fits; the overflow policy (recompute corners at 60 degrees, keep
`{0, n-1}` plus the first `max_points - 2` entries of that corner list,
sufficiency false); otherwise the Douglas-Peucker fill stage followed by
the `len >= min(len(coordinates), max_points * 0.8)` sufficiency
heuristic. -/
def adaptive_simplification (dist : α → α → α → ℚ) (bearing : α → α → ℚ)
    (coordinates : List α) (max_points : ℕ)
    (preserve_corners preserve_curves : Bool) : Option (List ℕ × Bool) :=
  let n := coordinates.length
  if n ≤ max_points then some (List.range n, true)
  else
    let critical_points := adaptiveCritical bearing coordinates preserve_corners preserve_curves
    if max_points < critical_points.card then
      let sorted_corners := detect_corners bearing coordinates 60
      let truncated := ({0, n - 1} : Finset ℕ) ∪ (sorted_corners.take (max_points - 2)).toFinset
      some (sortedList truncated, false)
    else
      let remaining_budget := max_points - critical_points.card
      let filled :=
        if 0 < remaining_budget then
          fillStage dist coordinates max_points remaining_budget critical_points
            toleranceSchedule
        else some critical_points
      filled.map (fun final_points =>
        (sortedList final_points,
         decide ((min (n : ℚ) ((max_points : ℚ) * (8 / 10)) ≤ (final_points.card : ℚ)))))

/-- A GeoJSON geometry after JSON decoding: a `type` tag and a coordinate
list.  Coordinate pairs are the abstract point type `α`. -/
structure Geometry (α : Type) where
  gtype : String
  coordinates : List α
deriving DecidableEq

/-- `validate_geojson_linestring` from `geometry_utils.py`: the `type` tag
must be `LineString`, there must be at least two coordinates, and every
coordinate must pass the per-coordinate shape/bounds check, which we
abstract as the predicate `coordOK` (the source checks that the entry is a
numeric pair with longitude in [-180, 180] and latitude in [-90, 90]). -/
def validate_geojson_linestring (coordOK : α → Bool) (geometry : Geometry α) : Bool :=
  geometry.gtype == "LineString" && decide (2 ≤ geometry.coordinates.length)
    && geometry.coordinates.all coordOK

/-- `calculate_linestring_length` from `geometry_utils.py`: the sum of the
haversine distances of consecutive coordinates (the two-point distance
primitive is abstracted as `d2`); `0` for fewer than two coordinates. -/
def calculate_linestring_length (d2 : α → α → ℚ) (coordinates : List α) : ℚ :=
  if coordinates.length < 2 then 0
  else
    (List.range (coordinates.length - 1)).foldl
      (fun total i => total + d2 (coordinates.getD i default) (coordinates.getD (i + 1) default)) 0

/-- The warnings `simplify_linestring` can append, with their numeric
payloads; the f-string rendering of the Python messages is abstracted. -/
inductive SimpWarning : Type where
  | insufficientBudget (max_coordinates : ℤ)
  | underutilized (simplified_count : ℕ) (max_coordinates : ℤ)
  | lengthLoss (length_preserved : ℚ)
deriving DecidableEq

/-- The two error types of `exceptions.py` that `simplify_linestring` can
raise.  `insufficientCoordinates` carries the `minimum_required` and
`provided_limit` diagnostic fields; message interpolation is abstracted to
the fixed message text. -/
inductive SimpError : Type where
  | invalidGeometry (message : String)
  | insufficientCoordinates (message : String) (minimum_required : ℤ) (provided_limit : ℤ)
deriving DecidableEq

/-- `type(e).__name__` for a `SimpError`. -/
def SimpError.typeName : SimpError → String
  | .invalidGeometry _ => "InvalidGeometryError"
  | .insufficientCoordinates _ _ _ => "InsufficientCoordinatesError"

/-- The message carried by a `SimpError` (`str(e)`). -/
def SimpError.message : SimpError → String
  | .invalidGeometry m => m
  | .insufficientCoordinates m _ _ => m

/-- The result dictionary of `SimplificationEngine.simplify_linestring`. -/
structure SimpResult (α : Type) where
  geometry : Geometry α
  original_count : ℕ
  simplified_count : ℕ
  reductionPct : ℚ
  lengthPreservedPct : ℚ
  warnings : List SimpWarning
  was_sufficient : Bool
deriving DecidableEq

deriving instance DecidableEq for Except

/-- `SimplificationEngine._calculate_minimum_required` from `core.py`:
`len` for at most two coordinates, else
`min(max(3, len(detect_corners(coords, 90.0))) + 2, len(coords))`. -/
def calculate_minimum_required (bearing : α → α → ℚ) (coordinates : List α) : ℕ :=
  if coordinates.length ≤ 2 then coordinates.length
  else
    let essential_corners := detect_corners bearing coordinates 90
    let minimum := max 3 essential_corners.length
    min (minimum + 2) coordinates.length

/-- `SimplificationEngine.simplify_linestring` from `core.py`, for an
already-decoded geometry (the JSON-string branch and the deep copy of the
caller's dict are identity at this level of abstraction).  Control flow of
the source, in order: validation failure raises `InvalidGeometryError`;
`max_coordinates < 2` raises `InsufficientCoordinatesError(2, limit)`; an
input that already fits returns the identity result; otherwise
`adaptive_simplification` runs, metrics and warnings are assembled, and a
final `max_coordinates < _calculate_minimum_required` check may raise
`InsufficientCoordinatesError` in place of the computed result.  The outer
`Option` models divergence of the adaptive stage; `Except` models raised
errors.  The parameters `min_angle_for_corners` and
`curve_detection_threshold` are accepted, as in the source signature, and
like the source they are never used. -/
def simplify_linestring (d2 : α → α → ℚ) (dist : α → α → α → ℚ) (bearing : α → α → ℚ)
    (coordOK : α → Bool) (geometry : Geometry α) (max_coordinates : ℤ)
    (preserve_corners preserve_curves : Bool)
    (min_angle_for_corners curve_detection_threshold : ℚ) :
    Option (Except SimpError (SimpResult α)) :=
  if ¬ (validate_geojson_linestring coordOK geometry = true) then
    some (.error (.invalidGeometry ("Input must be a valid GeoJSON LineString geometry")))
  else
    let coordinates := geometry.coordinates
    let original_count := coordinates.length
    if max_coordinates < 2 then
      some (.error (.insufficientCoordinates
        ("max_coordinates must be at least 2 for a valid LineString") 2 max_coordinates))
    else if (original_count : ℤ) ≤ max_coordinates then
      some (.ok ⟨geometry, original_count, original_count, 0, 100, [], true⟩)
    else
      let original_length := calculate_linestring_length d2 coordinates
      match adaptive_simplification dist bearing coordinates max_coordinates.toNat
          preserve_corners preserve_curves with
      | none => none
      | some (indices_to_keep, was_sufficient) =>
        let simplified_coordinates := indices_to_keep.map (coordinates.getD · default)
        let simplified_geometry : Geometry α := ⟨"LineString", simplified_coordinates⟩
        let simplified_count := simplified_coordinates.length
        let reductionPct := (((original_count : ℚ) - (simplified_count : ℚ)) / (original_count : ℚ)) * 100
        let simplified_length := calculate_linestring_length d2 simplified_coordinates
        let lengthPreservedPct :=
          if 0 < original_length then simplified_length / original_length * 100 else 100
        let warnings_list : List SimpWarning :=
          (if was_sufficient = false then [SimpWarning.insufficientBudget max_coordinates] else [])
          ++ (if (simplified_count : ℚ) < (max_coordinates : ℚ) * (5 / 10) then
              [SimpWarning.underutilized simplified_count max_coordinates] else [])
          ++ (if lengthPreservedPct < 95 then [SimpWarning.lengthLoss lengthPreservedPct] else [])
        let minimum_required := calculate_minimum_required bearing coordinates
        if max_coordinates < (minimum_required : ℤ) then
          some (.error (.insufficientCoordinates
            ("Cannot represent this geometry with the requested maximum number of coordinates")
            (minimum_required : ℤ) max_coordinates))
        else
          some (.ok ⟨simplified_geometry, original_count, simplified_count, reductionPct,
            lengthPreservedPct, warnings_list, was_sufficient⟩)

/-- One entry of the dictionary built by `get_simplification_preview`:
either the metrics summary of a successful call or the captured kind and
message of a raised failure. -/
inductive PreviewEntry : Type where
  | summary (simplified_count : ℕ) (reductionPct lengthPreservedPct : ℚ)
      (was_sufficient : Bool) (warning_count : ℕ)
  | failure (error_type : String) (error_message : String)
deriving DecidableEq

/-- How `get_simplification_preview` records the outcome of one
`simplify_linestring` call: the metrics summary on success, the error type
name and message on failure (the `except` clause catches exactly
`InvalidGeometryError` and `InsufficientCoordinatesError`, which are the
only errors `simplify_linestring` raises). -/
def capturePreview : Except SimpError (SimpResult α) → PreviewEntry
  | .ok result => .summary result.simplified_count result.reductionPct
      result.lengthPreservedPct result.was_sufficient result.warnings.length
  | .error e => .failure e.typeName e.message

/-- The `for limit in max_coordinates_options` loop of
`get_simplification_preview`: run `simplify_linestring` (with its default
optional arguments) once per limit, appending one entry per limit; a raised
failure is captured and the loop continues. -/
def previewLoop (d2 : α → α → ℚ) (dist : α → α → α → ℚ) (bearing : α → α → ℚ)
    (coordOK : α → Bool) (geometry : Geometry α) :
    List ℤ → List (ℤ × PreviewEntry) → Option (List (ℤ × PreviewEntry))
  | [], results => some results
  | limit :: rest, results =>
    match simplify_linestring d2 dist bearing coordOK geometry limit true true 30 45 with
    | none => none
    | some outcome =>
      previewLoop d2 dist bearing coordOK geometry rest (results ++ [(limit, capturePreview outcome)])

/-- `SimplificationEngine.get_simplification_preview` from `core.py`.  The
Python dict keyed by limit is modelled as the association list of
(limit, entry) pairs in evaluation order. -/
def get_simplification_preview (d2 : α → α → ℚ) (dist : α → α → α → ℚ)
    (bearing : α → α → ℚ) (coordOK : α → Bool) (geometry : Geometry α)
    (max_coordinates_options : List ℤ) : Option (List (ℤ × PreviewEntry)) :=
  previewLoop d2 dist bearing coordOK geometry max_coordinates_options []

/-! ### Properties of `sortedList` -/

theorem mem_sortedList {s : Finset ℕ} {x : ℕ} : x ∈ sortedList s ↔ x ∈ s := by
  unfold sortedList
  simp only [List.mem_filter, List.mem_range, decide_eq_true_eq, and_iff_right_iff_imp]
  intro hx
  exact Nat.lt_succ_of_le (Finset.le_sup (f := id) hx)

theorem sortedList_eq_sort (s : Finset ℕ) : sortedList s = s.sort (· ≤ ·) := by
  have hs : (sortedList s).Sorted (· ≤ ·) :=
    ((List.pairwise_lt_range _).sublist (List.filter_sublist _)).imp (fun h => le_of_lt h)
  have hperm : List.Perm (sortedList s) (s.sort (· ≤ ·)) := by
    refine (List.perm_ext_iff_of_nodup ?_ (Finset.sort_nodup _ s)).mpr ?_
    · exact (List.nodup_range _).filter _
    · intro a
      rw [mem_sortedList, Finset.mem_sort]
  exact List.eq_of_perm_of_sorted hperm hs (Finset.sort_sorted _ s)

theorem sortedList_sorted_le (s : Finset ℕ) : (sortedList s).Sorted (· ≤ ·) := by
  rw [sortedList_eq_sort]; exact Finset.sort_sorted _ s

theorem sortedList_sorted_lt (s : Finset ℕ) : (sortedList s).Sorted (· < ·) := by
  rw [sortedList_eq_sort]; exact Finset.sort_sorted_lt s

theorem sortedList_nodup (s : Finset ℕ) : (sortedList s).Nodup := by
  rw [sortedList_eq_sort]; exact Finset.sort_nodup _ s

theorem length_sortedList (s : Finset ℕ) : (sortedList s).length = s.card := by
  rw [sortedList_eq_sort]; exact Finset.length_sort (· ≤ ·)

theorem sortedList_toFinset (s : Finset ℕ) : (sortedList s).toFinset = s := by
  rw [sortedList_eq_sort]; exact Finset.sort_toFinset _ s

/-! ### Properties of the corner and curve detectors -/

theorem detect_corners_zero_mem (bearing : α → α → ℚ) (coordinates : List α)
    (min_angle_change : ℚ) :
    0 ∈ detect_corners bearing coordinates min_angle_change := by
  by_cases h : coordinates.length ≤ 2 <;> simp [detect_corners, h]

theorem detect_corners_last_mem (bearing : α → α → ℚ) (coordinates : List α)
    (min_angle_change : ℚ) :
    coordinates.length - 1 ∈ detect_corners bearing coordinates min_angle_change := by
  by_cases h : coordinates.length ≤ 2 <;> simp [detect_corners, h]

theorem detect_corners_lt (bearing : α → α → ℚ) (coordinates : List α)
    (min_angle_change : ℚ) (hn : 1 ≤ coordinates.length) :
    ∀ i ∈ detect_corners bearing coordinates min_angle_change, i < coordinates.length := by
  intro i hi
  by_cases h : coordinates.length ≤ 2
  · simp only [detect_corners, if_pos h, List.mem_cons, List.not_mem_nil, or_false] at hi
    rcases hi with rfl | rfl <;> omega
  · simp only [detect_corners, if_neg h, List.mem_append, List.mem_singleton,
      List.mem_filter] at hi
    rcases hi with (h1 | h1) | h1
    · omega
    · have := List.mem_range'_1.mp h1.1
      omega
    · omega

theorem detect_curves_of_short (bearing : α → α → ℚ) (coordinates : List α)
    (window_size : ℕ) (curve_threshold : ℚ)
    (h : coordinates.length ≤ window_size * 2) :
    detect_curves bearing coordinates window_size curve_threshold =
      List.range coordinates.length := by
  simp [detect_curves, h]

theorem detect_curves_of_long (bearing : α → α → ℚ) (coordinates : List α)
    (window_size : ℕ) (curve_threshold : ℚ)
    (h : window_size * 2 < coordinates.length) :
    ∀ i ∈ detect_curves bearing coordinates window_size curve_threshold,
      window_size ≤ i ∧ i < coordinates.length - window_size := by
  intro i hi
  simp only [detect_curves, if_neg (by omega : ¬ coordinates.length ≤ window_size * 2)] at hi
  have := List.mem_range'_1.mp (List.mem_filter.mp hi).1
  omega

theorem detect_curves_lt (bearing : α → α → ℚ) (coordinates : List α)
    (window_size : ℕ) (curve_threshold : ℚ) :
    ∀ i ∈ detect_curves bearing coordinates window_size curve_threshold,
      i < coordinates.length := by
  intro i hi
  by_cases h : coordinates.length ≤ window_size * 2
  · rw [detect_curves_of_short bearing coordinates window_size curve_threshold h] at hi
    exact List.mem_range.mp hi
  · have := detect_curves_of_long bearing coordinates window_size curve_threshold (by omega) i hi
    omega

/-! ### The maximum-distance scan -/

theorem maxLoop_spec (f : ℕ → ℚ) :
    ∀ (k a : ℕ) (md0 : ℚ) (mi0 : ℕ) (md : ℚ) (mi : ℕ),
      maxLoop f (List.range' a k) (md0, mi0) = (md, mi) →
      md0 ≤ md ∧
      (∀ i, a ≤ i → i < a + k → f i ≤ md) ∧
      ((md = md0 ∧ mi = mi0) ∨
        (a ≤ mi ∧ mi < a + k ∧ f mi = md ∧ md0 < md ∧ ∀ i, a ≤ i → i < mi → f i < md)) := by
  intro k
  induction k with
  | zero =>
    intro a md0 mi0 md mi h
    simp only [List.range', maxLoop] at h
    cases h
    refine ⟨le_refl _, ?_, Or.inl ⟨rfl, rfl⟩⟩
    intro i h1 h2
    omega
  | succ k ih =>
    intro a md0 mi0 md mi h
    rw [List.range'_succ] at h
    simp only [maxLoop] at h
    by_cases hfa : md0 < f a
    · rw [if_pos hfa] at h
      obtain ⟨hle, hub, hdisj⟩ := ih (a + 1) (f a) a md mi h
      refine ⟨le_of_lt (lt_of_lt_of_le hfa hle), ?_, ?_⟩
      · intro i h1 h2
        rcases Nat.eq_or_lt_of_le h1 with rfl | h1
        · exact hle
        · exact hub i h1 (by omega)
      · rcases hdisj with ⟨hmd, hmi⟩ | ⟨h1, h2, h3, h4, h5⟩
        · refine Or.inr ⟨by omega, by omega, ?_, ?_, ?_⟩
          · rw [hmi, hmd]
          · rw [hmd]; exact hfa
          · intro i hi1 hi2
            rw [hmi] at hi2
            omega
        · refine Or.inr ⟨by omega, by omega, h3, lt_trans hfa h4, ?_⟩
          intro i hi1 hi2
          rcases Nat.eq_or_lt_of_le hi1 with rfl | hi1
          · exact h4
          · exact h5 i hi1 hi2
    · rw [if_neg hfa] at h
      push_neg at hfa
      obtain ⟨hle, hub, hdisj⟩ := ih (a + 1) md0 mi0 md mi h
      refine ⟨hle, ?_, ?_⟩
      · intro i h1 h2
        rcases Nat.eq_or_lt_of_le h1 with rfl | h1
        · exact le_trans hfa hle
        · exact hub i h1 (by omega)
      · rcases hdisj with ⟨h1, h2⟩ | ⟨h1, h2, h3, h4, h5⟩
        · exact Or.inl ⟨h1, h2⟩
        · refine Or.inr ⟨by omega, by omega, h3, h4, ?_⟩
          intro i hi1 hi2
          rcases Nat.eq_or_lt_of_le hi1 with rfl | hi1
          · exact lt_of_le_of_lt hfa h4
          · exact h5 i hi1 hi2

theorem maxLoop_eq (f : ℕ → ℚ) (a b k : ℕ) (M : ℚ)
    (hak : a < k) (hkb : k < b)
    (hM : f k = M) (hMpos : 0 < M)
    (hub : ∀ i, a < i → i < b → f i ≤ M)
    (hfirst : ∀ i, a < i → i < k → f i < M) :
    maxLoop f (List.range' (a + 1) (b - a - 1)) (0, a) = (M, k) := by
  rcases hml : maxLoop f (List.range' (a + 1) (b - a - 1)) (0, a) with ⟨md, mi⟩
  obtain ⟨-, hub2, hdisj⟩ := maxLoop_spec f (b - a - 1) (a + 1) 0 a md mi hml
  have hrange : a + 1 + (b - a - 1) = b := by omega
  have hMmd : M ≤ md := by
    have := hub2 k (by omega) (by omega)
    rw [hM] at this
    exact this
  rcases hdisj with ⟨hmd, hmi⟩ | ⟨h1, h2, h3, h4, h5⟩
  · exfalso
    rw [hmd] at hMmd
    exact absurd hMpos (not_lt.mpr hMmd)
  · have hmdM : md ≤ M := by
      rw [← h3]
      exact hub mi (by omega) (by omega)
    have hmdeq : md = M := le_antisymm hmdM hMmd
    have hmieq : mi = k := by
      rcases Nat.lt_trichotomy mi k with hlt | heq | hgt
      · exfalso
        have := hfirst mi (by omega) hlt
        rw [h3, hmdeq] at this
        exact lt_irrefl M this
      · exact heq
      · exfalso
        have := h5 k (by omega) hgt
        rw [hM, hmdeq] at this
        exact lt_irrefl M this
    rw [hmdeq, hmieq]

/-! ### Structural properties of `dp_recursive` -/

theorem dpRec_subset (D : ℕ → ℕ → ℕ → ℚ) (tolerance : ℚ) :
    ∀ (fuel s e : ℕ) (S : Finset ℕ), s ≤ e → dpRec D tolerance fuel s e = some S →
      S ⊆ Finset.Icc s e := by
  intro fuel
  induction fuel with
  | zero => intro s e S _ h; cases h
  | succ fuel ih =>
    intro s e S hse h
    rw [dpRec] at h
    by_cases hbase : e - s ≤ 1
    · rw [if_pos hbase] at h
      cases h
      intro x hx
      simp only [Finset.mem_insert, Finset.mem_singleton] at hx
      rcases hx with rfl | rfl <;> simp [Finset.mem_Icc, hse]
    · rw [if_neg hbase] at h
      rcases hml : maxLoop (fun i => D i s e) (List.range' (s + 1) (e - s - 1)) (0, s)
        with ⟨md, mi⟩
      rw [hml] at h
      obtain ⟨-, -, hdisj⟩ := maxLoop_spec _ (e - s - 1) (s + 1) 0 s md mi hml
      have hmi : s ≤ mi ∧ mi ≤ e := by
        rcases hdisj with ⟨-, hmi⟩ | ⟨h1, h2, -, -, -⟩
        · omega
        · omega
      by_cases htol : tolerance < md
      · rw [if_pos htol] at h
        rcases hL : dpRec D tolerance fuel s mi with - | L
        · rw [hL] at h; cases h
        rcases hR : dpRec D tolerance fuel mi e with - | R
        · rw [hL, hR] at h; cases h
        rw [hL, hR] at h
        cases h
        intro x hx
        rcases Finset.mem_union.mp hx with hx | hx
        · have := ih s mi L hmi.1 hL hx
          simp only [Finset.mem_Icc] at this ⊢
          omega
        · have := ih mi e R hmi.2 hR hx
          simp only [Finset.mem_Icc] at this ⊢
          omega
      · rw [if_neg htol] at h
        cases h
        intro x hx
        simp only [Finset.mem_insert, Finset.mem_singleton] at hx
        rcases hx with rfl | rfl <;> simp [Finset.mem_Icc, hse]

theorem dpRec_endpoints (D : ℕ → ℕ → ℕ → ℚ) (tolerance : ℚ) :
    ∀ (fuel s e : ℕ) (S : Finset ℕ), dpRec D tolerance fuel s e = some S →
      s ∈ S ∧ e ∈ S := by
  intro fuel
  induction fuel with
  | zero => intro s e S h; cases h
  | succ fuel ih =>
    intro s e S h
    rw [dpRec] at h
    by_cases hbase : e - s ≤ 1
    · rw [if_pos hbase] at h
      cases h
      constructor <;> simp
    · rw [if_neg hbase] at h
      rcases hml : maxLoop (fun i => D i s e) (List.range' (s + 1) (e - s - 1)) (0, s)
        with ⟨md, mi⟩
      rw [hml] at h
      by_cases htol : tolerance < md
      · rw [if_pos htol] at h
        rcases hL : dpRec D tolerance fuel s mi with - | L
        · rw [hL] at h; cases h
        rcases hR : dpRec D tolerance fuel mi e with - | R
        · rw [hL, hR] at h; cases h
        rw [hL, hR] at h
        cases h
        exact ⟨Finset.mem_union_left _ (ih s mi L hL).1,
          Finset.mem_union_right _ (ih mi e R hR).2⟩
      · rw [if_neg htol] at h
        cases h
        constructor <;> simp

theorem dpRec_stuck (D : ℕ → ℕ → ℕ → ℚ) (tolerance : ℚ) (s e : ℕ)
    (hbase : ¬ (e - s ≤ 1))
    (hml : (maxLoop (fun i => D i s e) (List.range' (s + 1) (e - s - 1)) (0, s)).2 = s)
    (htol : tolerance < (maxLoop (fun i => D i s e) (List.range' (s + 1) (e - s - 1)) (0, s)).1) :
    ∀ fuel, dpRec D tolerance fuel s e = none := by
  intro fuel
  induction fuel with
  | zero => rfl
  | succ fuel ih =>
    rw [dpRec, if_neg hbase]
    rcases hm : maxLoop (fun i => D i s e) (List.range' (s + 1) (e - s - 1)) (0, s)
      with ⟨md, mi⟩
    rw [hm] at hml htol
    simp only at hml htol
    rw [if_pos htol, hml, ih]
    cases dpRec D tolerance fuel s (md, s).2 <;> rfl

/-! ### List-level properties of `douglas_peucker` -/

theorem douglas_peucker_sorted (dist : α → α → α → ℚ) (coordinates : List α)
    (tolerance : ℚ) (I : List ℕ)
    (h : douglas_peucker dist coordinates tolerance = some I) :
    I.Sorted (· < ·) := by
  unfold douglas_peucker at h
  by_cases hn : coordinates.length ≤ 2
  · rw [if_pos hn] at h
    cases h
    exact List.pairwise_lt_range _
  · rw [if_neg hn] at h
    rcases hS : dpRec (dpDist dist coordinates) tolerance coordinates.length 0
        (coordinates.length - 1) with - | S
    · rw [hS] at h; cases h
    · rw [hS] at h
      cases h
      exact sortedList_sorted_lt S

theorem douglas_peucker_endpoints (dist : α → α → α → ℚ) (coordinates : List α)
    (tolerance : ℚ) (I : List ℕ) (hn : 1 ≤ coordinates.length)
    (h : douglas_peucker dist coordinates tolerance = some I) :
    0 ∈ I ∧ coordinates.length - 1 ∈ I := by
  unfold douglas_peucker at h
  by_cases h2 : coordinates.length ≤ 2
  · rw [if_pos h2] at h
    cases h
    constructor <;> rw [List.mem_range] <;> omega
  · rw [if_neg h2] at h
    rcases hS : dpRec (dpDist dist coordinates) tolerance coordinates.length 0
        (coordinates.length - 1) with - | S
    · rw [hS] at h; cases h
    · rw [hS] at h
      cases h
      have := dpRec_endpoints (dpDist dist coordinates) tolerance coordinates.length 0
        (coordinates.length - 1) S hS
      exact ⟨mem_sortedList.mpr this.1, mem_sortedList.mpr this.2⟩

theorem douglas_peucker_lt (dist : α → α → α → ℚ) (coordinates : List α)
    (tolerance : ℚ) (I : List ℕ)
    (h : douglas_peucker dist coordinates tolerance = some I) :
    ∀ x ∈ I, x < coordinates.length := by
  intro x hx
  unfold douglas_peucker at h
  by_cases h2 : coordinates.length ≤ 2
  · rw [if_pos h2] at h
    cases h
    exact List.mem_range.mp hx
  · rw [if_neg h2] at h
    rcases hS : dpRec (dpDist dist coordinates) tolerance coordinates.length 0
        (coordinates.length - 1) with - | S
    · rw [hS] at h; cases h
    · rw [hS] at h
      cases h
      have hsub := dpRec_subset (dpDist dist coordinates) tolerance coordinates.length 0
        (coordinates.length - 1) S (by omega) hS
      have := hsub (mem_sortedList.mp hx)
      simp only [Finset.mem_Icc] at this
      omega

/-! ### Head and last element of a sorted index list -/

theorem sorted_head_eq_zero {l : List ℕ} (hs : l.Sorted (· ≤ ·)) (h0 : 0 ∈ l) :
    l.head? = some 0 := by
  cases l with
  | nil => cases h0
  | cons a t =>
    rcases List.mem_cons.mp h0 with h | h
    · rw [← h]; rfl
    · have := List.rel_of_sorted_cons hs 0 h
      have ha : a = 0 := Nat.le_zero.mp this
      rw [ha]; rfl

theorem sorted_getLast_eq {l : List ℕ} (m : ℕ) (hs : l.Sorted (· ≤ ·)) (hm : m ∈ l)
    (hub : ∀ x ∈ l, x ≤ m) : l.getLast? = some m := by
  induction l with
  | nil => cases hm
  | cons a t ih =>
    cases t with
    | nil =>
      rcases List.mem_cons.mp hm with h | h
      · rw [← h]; rfl
      · cases h
    | cons b t' =>
      rw [List.getLast?_cons_cons]
      have hst : (b :: t').Sorted (· ≤ ·) := hs.of_cons
      have hmt : m ∈ b :: t' := by
        rcases List.mem_cons.mp hm with h | h
        · have hab : a ≤ b := (List.rel_of_sorted_cons hs b (List.mem_cons_self _ _))
          have hbm : b ≤ m := hub b (List.mem_cons_of_mem _ (List.mem_cons_self _ _))
          have : b = m := by omega
          rw [← this] at h ⊢
          exact List.mem_cons_self _ _
        · exact h
      exact ih hst hmt (fun x hx => hub x (List.mem_cons_of_mem _ hx))

/-! ### Properties of the critical set and the fill stage -/

theorem mem_adaptiveCritical (bearing : α → α → ℚ) (coordinates : List α)
    (preserve_corners preserve_curves : Bool) (x : ℕ) :
    x ∈ adaptiveCritical bearing coordinates preserve_corners preserve_curves ↔
      (x ∈ ({0, coordinates.length - 1} : Finset ℕ) ∨
        (preserve_corners = true ∧ x ∈ (detect_corners bearing coordinates 30).toFinset) ∨
        (preserve_curves = true ∧ x ∈ (detect_curves bearing coordinates 5 45).toFinset)) := by
  unfold adaptiveCritical
  cases preserve_corners <;> cases preserve_curves <;>
    simp [Finset.mem_union] <;> tauto

theorem adaptiveCritical_pair_subset (bearing : α → α → ℚ) (coordinates : List α)
    (preserve_corners preserve_curves : Bool) :
    ({0, coordinates.length - 1} : Finset ℕ) ⊆
      adaptiveCritical bearing coordinates preserve_corners preserve_curves := by
  intro x hx
  exact (mem_adaptiveCritical bearing coordinates preserve_corners preserve_curves x).mpr
    (Or.inl hx)

theorem adaptiveCritical_lt (bearing : α → α → ℚ) (coordinates : List α)
    (preserve_corners preserve_curves : Bool) (hn : 1 ≤ coordinates.length) :
    ∀ x ∈ adaptiveCritical bearing coordinates preserve_corners preserve_curves,
      x < coordinates.length := by
  intro x hx
  rcases (mem_adaptiveCritical bearing coordinates preserve_corners preserve_curves x).mp hx
    with h | ⟨-, h⟩ | ⟨-, h⟩
  · simp only [Finset.mem_insert, Finset.mem_singleton] at h
    rcases h with rfl | rfl <;> omega
  · exact detect_corners_lt bearing coordinates 30 hn x (List.mem_toFinset.mp h)
  · exact detect_curves_lt bearing coordinates 5 45 x (List.mem_toFinset.mp h)

theorem fillStage_spec (dist : α → α → α → ℚ) (coordinates : List α)
    (max_points remaining_budget : ℕ) (critical_points : Finset ℕ) :
    ∀ (ts : List ℚ) (S : Finset ℕ), critical_points.card ≤ max_points →
      fillStage dist coordinates max_points remaining_budget critical_points ts = some S →
      critical_points ⊆ S ∧ S.card ≤ max_points ∧
        ∀ x ∈ S, x ∈ critical_points ∨ x < coordinates.length := by
  intro ts
  induction ts with
  | nil =>
    intro S hcard h
    rw [fillStage] at h
    cases h
    exact ⟨Finset.Subset.refl _, hcard, fun x hx => Or.inl hx⟩
  | cons tolerance rest ih =>
    intro S hcard h
    rw [fillStage] at h
    rcases hdp : douglas_peucker dist coordinates tolerance with - | dp_points
    · rw [hdp] at h; cases h
    · rw [hdp] at h
      simp only at h
      by_cases hfit : (critical_points ∪ dp_points.toFinset).card ≤ max_points
      · rw [if_pos hfit] at h
        by_cases hadd : 0 < min remaining_budget (dp_points.toFinset \ critical_points).card
        · rw [if_pos hadd] at h
          cases h
          have htake : ((sortedList (dp_points.toFinset \ critical_points)).take
              (min remaining_budget (dp_points.toFinset \ critical_points).card)).toFinset ⊆
              dp_points.toFinset \ critical_points := by
            intro x hx
            have := List.mem_of_mem_take (List.mem_toFinset.mp hx)
            exact mem_sortedList.mp this
          refine ⟨Finset.subset_union_left, ?_, ?_⟩
          · calc (critical_points ∪ _).card
                ≤ (critical_points ∪ dp_points.toFinset).card := by
                  apply Finset.card_le_card
                  apply Finset.union_subset_union (Finset.Subset.refl _)
                  intro x hx
                  exact (Finset.mem_sdiff.mp (htake hx)).1
              _ ≤ max_points := hfit
          · intro x hx
            rcases Finset.mem_union.mp hx with hx | hx
            · exact Or.inl hx
            · have := (Finset.mem_sdiff.mp (htake hx)).1
              exact Or.inr (douglas_peucker_lt dist coordinates tolerance dp_points hdp x
                (List.mem_toFinset.mp this))
        · rw [if_neg hadd] at h
          cases h
          exact ⟨Finset.Subset.refl _, hcard, fun x hx => Or.inl hx⟩
      · rw [if_neg hfit] at h
        exact ih S hcard h

theorem adaptive_shape (dist : α → α → α → ℚ) (bearing : α → α → ℚ)
    (coordinates : List α) (max_points : ℕ) (preserve_corners preserve_curves : Bool)
    (idxs : List ℕ) (suff : Bool)
    (h : adaptive_simplification dist bearing coordinates max_points
      preserve_corners preserve_curves = some (idxs, suff)) :
    (coordinates.length ≤ max_points ∧ idxs = List.range coordinates.length) ∨
    (max_points < coordinates.length ∧ ∃ S : Finset ℕ, idxs = sortedList S ∧
      ({0, coordinates.length - 1} : Finset ℕ) ⊆ S ∧
      (∀ x ∈ S, x < coordinates.length) ∧ S.card ≤ max max_points 2) := by
  simp only [adaptive_simplification] at h
  by_cases hfit : coordinates.length ≤ max_points
  · rw [if_pos hfit] at h
    simp only [Option.some.injEq, Prod.mk.injEq] at h
    exact Or.inl ⟨hfit, h.1.symm⟩
  · rw [if_neg hfit] at h
    push_neg at hfit
    have hn : 1 ≤ coordinates.length := by omega
    by_cases hover : max_points <
        (adaptiveCritical bearing coordinates preserve_corners preserve_curves).card
    · rw [if_pos hover] at h
      simp only [Option.some.injEq, Prod.mk.injEq] at h
      refine Or.inr ⟨hfit, _, h.1.symm, Finset.subset_union_left, ?_, ?_⟩
      · intro x hx
        rcases Finset.mem_union.mp hx with hx | hx
        · simp only [Finset.mem_insert, Finset.mem_singleton] at hx
          rcases hx with rfl | rfl <;> omega
        · exact detect_corners_lt bearing coordinates 60 hn x
            (List.mem_of_mem_take (List.mem_toFinset.mp hx))
      · calc (({0, coordinates.length - 1} : Finset ℕ) ∪
              ((detect_corners bearing coordinates 60).take (max_points - 2)).toFinset).card
            ≤ ({0, coordinates.length - 1} : Finset ℕ).card +
              ((detect_corners bearing coordinates 60).take (max_points - 2)).toFinset.card :=
              Finset.card_union_le _ _
          _ ≤ 2 + (max_points - 2) := by
              have h1 : ({0, coordinates.length - 1} : Finset ℕ).card ≤ 2 := by
                apply le_trans (Finset.card_insert_le _ _)
                simp
              have h2 : ((detect_corners bearing coordinates 60).take
                  (max_points - 2)).toFinset.card ≤ max_points - 2 :=
                le_trans (List.toFinset_card_le _) (List.length_take_le _ _)
              omega
          _ ≤ max max_points 2 := by omega
    · rw [if_neg hover] at h
      push_neg at hover
      by_cases hrb : 0 <
          max_points - (adaptiveCritical bearing coordinates preserve_corners preserve_curves).card
      · rw [if_pos hrb] at h
        rcases hfill : fillStage dist coordinates max_points
            (max_points -
              (adaptiveCritical bearing coordinates preserve_corners preserve_curves).card)
            (adaptiveCritical bearing coordinates preserve_corners preserve_curves)
            toleranceSchedule with - | F
        · rw [hfill] at h; cases h
        · rw [hfill] at h
          simp only [Option.map_some', Option.some.injEq, Prod.mk.injEq] at h
          obtain ⟨hsub, hcard, hmem⟩ := fillStage_spec dist coordinates max_points _ _
            toleranceSchedule F hover hfill
          refine Or.inr ⟨hfit, F, h.1.symm, ?_, ?_, by omega⟩
          · exact le_trans (adaptiveCritical_pair_subset bearing coordinates _ _) hsub
          · intro x hx
            rcases hmem x hx with hx2 | hx2
            · exact adaptiveCritical_lt bearing coordinates _ _ hn x hx2
            · exact hx2
      · rw [if_neg hrb] at h
        simp only [Option.map_some', Option.some.injEq, Prod.mk.injEq] at h
        refine Or.inr ⟨hfit, _, h.1.symm,
          adaptiveCritical_pair_subset bearing coordinates _ _, ?_, by omega⟩
        exact adaptiveCritical_lt bearing coordinates _ _ hn

theorem adaptive_length_bounds (dist : α → α → α → ℚ) (bearing : α → α → ℚ)
    (coordinates : List α) (max_points : ℕ) (preserve_corners preserve_curves : Bool)
    (idxs : List ℕ) (suff : Bool) (hmp : 2 ≤ max_points) (hn : 2 ≤ coordinates.length)
    (h : adaptive_simplification dist bearing coordinates max_points
      preserve_corners preserve_curves = some (idxs, suff)) :
    2 ≤ idxs.length ∧ idxs.length ≤ max_points := by
  rcases adaptive_shape dist bearing coordinates max_points preserve_corners preserve_curves
      idxs suff h with ⟨hle, rfl⟩ | ⟨hgt, S, rfl, hpair, hlt, hcard⟩
  · rw [List.length_range]
    exact ⟨hn, hle⟩
  · rw [length_sortedList]
    constructor
    · have hne : (0 : ℕ) ≠ coordinates.length - 1 := by omega
      calc 2 = ({0, coordinates.length - 1} : Finset ℕ).card := (Finset.card_pair hne).symm
        _ ≤ S.card := Finset.card_le_card hpair
    · omega

theorem adaptive_list_facts (dist : α → α → α → ℚ) (bearing : α → α → ℚ)
    (coordinates : List α) (max_points : ℕ) (preserve_corners preserve_curves : Bool)
    (idxs : List ℕ) (suff : Bool) (hn : 1 ≤ coordinates.length)
    (h : adaptive_simplification dist bearing coordinates max_points
      preserve_corners preserve_curves = some (idxs, suff)) :
    0 ∈ idxs ∧ coordinates.length - 1 ∈ idxs ∧ idxs.Sorted (· ≤ ·) ∧
      ∀ x ∈ idxs, x < coordinates.length := by
  rcases adaptive_shape dist bearing coordinates max_points preserve_corners preserve_curves
      idxs suff h with ⟨hle, rfl⟩ | ⟨hgt, S, rfl, hpair, hlt, hcard⟩
  · refine ⟨List.mem_range.mpr (by omega), List.mem_range.mpr (by omega), ?_, ?_⟩
    · exact (List.pairwise_lt_range _).imp (fun h => le_of_lt h)
    · intro x hx
      exact List.mem_range.mp hx
  · have h0 : 0 ∈ S := hpair (by simp)
    have hl : coordinates.length - 1 ∈ S := hpair (by simp)
    refine ⟨mem_sortedList.mpr h0, mem_sortedList.mpr hl, sortedList_sorted_le S, ?_⟩
    intro x hx
    exact hlt x (mem_sortedList.mp hx)

/-! ### Control-flow shape of the facade -/

theorem validate_length (coordOK : α → Bool) (geometry : Geometry α)
    (h : validate_geojson_linestring coordOK geometry = true) :
    2 ≤ geometry.coordinates.length := by
  simp only [validate_geojson_linestring, Bool.and_eq_true, decide_eq_true_eq] at h
  exact h.1.2

theorem simplify_ok_shape (d2 : α → α → ℚ) (dist : α → α → α → ℚ) (bearing : α → α → ℚ)
    (coordOK : α → Bool) (geometry : Geometry α) (max_coordinates : ℤ)
    (preserve_corners preserve_curves : Bool)
    (min_angle_for_corners curve_detection_threshold : ℚ) (r : SimpResult α)
    (h : simplify_linestring d2 dist bearing coordOK geometry max_coordinates
      preserve_corners preserve_curves min_angle_for_corners curve_detection_threshold =
      some (.ok r)) :
    validate_geojson_linestring coordOK geometry = true ∧ 2 ≤ max_coordinates ∧
    (((geometry.coordinates.length : ℤ) ≤ max_coordinates ∧
        r = ⟨geometry, geometry.coordinates.length, geometry.coordinates.length,
          0, 100, [], true⟩) ∨
      (max_coordinates < (geometry.coordinates.length : ℤ) ∧ ∃ idxs suff,
        adaptive_simplification dist bearing geometry.coordinates max_coordinates.toNat
          preserve_corners preserve_curves = some (idxs, suff) ∧
        r.geometry = ⟨"LineString", idxs.map (geometry.coordinates.getD · default)⟩ ∧
        r.simplified_count = idxs.length ∧ r.original_count = geometry.coordinates.length)) := by
  simp only [simplify_linestring] at h
  by_cases hval : validate_geojson_linestring coordOK geometry = true
  · rw [if_neg (by simp [hval])] at h
    refine ⟨hval, ?_, ?_⟩
    · by_contra hmc
      rw [if_pos (by omega)] at h
      simp at h
    · have hmc : 2 ≤ max_coordinates := by
        by_contra hmc
        rw [if_pos (by omega)] at h
        simp at h
      rw [if_neg (by omega)] at h
      by_cases hfit : (geometry.coordinates.length : ℤ) ≤ max_coordinates
      · rw [if_pos hfit] at h
        simp only [Option.some.injEq, Except.ok.injEq] at h
        exact Or.inl ⟨hfit, h.symm⟩
      · rw [if_neg hfit] at h
        rcases hadapt : adaptive_simplification dist bearing geometry.coordinates
            max_coordinates.toNat preserve_corners preserve_curves with - | p
        · rw [hadapt] at h; cases h
        · rcases p with ⟨idxs, suff⟩
          rw [hadapt] at h
          dsimp only at h
          by_cases hmin : max_coordinates <
              ((calculate_minimum_required bearing geometry.coordinates : ℤ))
          · rw [if_pos hmin] at h
            simp at h
          · rw [if_neg hmin] at h
            simp only [Option.some.injEq, Except.ok.injEq] at h
            refine Or.inr ⟨by omega, idxs, suff, rfl, ?_, ?_, ?_⟩
            · rw [← h]
            · rw [← h]
              simp
            · rw [← h]
  · rw [if_pos (by simp [hval])] at h
    simp at h

theorem head?_eq_getD {l : List α} (h : l ≠ []) : l.head? = some (l.getD 0 default) := by
  cases l with
  | nil => exact absurd rfl h
  | cons a t => rfl

theorem getLast?_eq_getD {l : List α} (h : l ≠ []) :
    l.getLast? = some (l.getD (l.length - 1) default) := by
  have hlt : l.length - 1 < l.length := by
    cases l with
    | nil => exact absurd rfl h
    | cons a t => simp
  rw [List.getLast?_eq_getElem?, List.getElem?_eq_getElem hlt]
  simp [List.getD_eq_getElem?_getD, List.getElem?_eq_getElem hlt]

/-- C1: on every call on which `simplify_linestring` returns a result, the
returned `simplified_count` is at least 2 and at most `max(budget, 2)`;
and the index list returned by `adaptive_simplification` (for a budget of
at least 2 on a polyline of at least 2 points, as guaranteed by the
facade) never has more than `max_points` elements and never fewer than 2,
on every branch. -/
theorem claim_C1 (d2 : α → α → ℚ) (dist : α → α → α → ℚ) (bearing : α → α → ℚ)
    (coordOK : α → Bool) :
    (∀ (geometry : Geometry α) (max_coordinates : ℤ) (pc pv : Bool) (ma ct : ℚ)
        (r : SimpResult α),
      simplify_linestring d2 dist bearing coordOK geometry max_coordinates pc pv ma ct =
        some (.ok r) →
      2 ≤ r.simplified_count ∧ (r.simplified_count : ℤ) ≤ max max_coordinates 2) ∧
    (∀ (coordinates : List α) (max_points : ℕ) (pc pv : Bool) (idxs : List ℕ) (suff : Bool),
      2 ≤ max_points → 2 ≤ coordinates.length →
      adaptive_simplification dist bearing coordinates max_points pc pv = some (idxs, suff) →
      2 ≤ idxs.length ∧ idxs.length ≤ max_points) := by
  constructor
  · intro geometry max_coordinates pc pv ma ct r h
    obtain ⟨hval, hmc, hdisj⟩ := simplify_ok_shape d2 dist bearing coordOK geometry
      max_coordinates pc pv ma ct r h
    have hlen := validate_length coordOK geometry hval
    rcases hdisj with ⟨hfit, rfl⟩ | ⟨hgt, idxs, suff, hadapt, hgeo, hcount, horig⟩
    · constructor
      · exact hlen
      · calc ((geometry.coordinates.length : ℕ) : ℤ) ≤ max_coordinates := hfit
          _ ≤ max max_coordinates 2 := le_max_left _ _
    · have hmp : 2 ≤ max_coordinates.toNat := by omega
      obtain ⟨h2, hub⟩ := adaptive_length_bounds dist bearing geometry.coordinates
        max_coordinates.toNat pc pv idxs suff hmp hlen hadapt
      rw [hcount]
      constructor
      · exact h2
      · calc (idxs.length : ℤ) ≤ (max_coordinates.toNat : ℤ) := by exact_mod_cast hub
          _ = max_coordinates := Int.toNat_of_nonneg (by omega)
          _ ≤ max max_coordinates 2 := le_max_left _ _
  · intro coordinates max_points pc pv idxs suff hmp hn h
    exact adaptive_length_bounds dist bearing coordinates max_points pc pv idxs suff hmp hn h

theorem claim_C1_witness :
    (2 ≤ (⟨⟨"LineString", [0, 1]⟩, 2, 2, 0, 100, [], true⟩ : SimpResult ℕ).simplified_count ∧
      ((⟨⟨"LineString", [0, 1]⟩, 2, 2, 0, 100, [], true⟩ : SimpResult ℕ).simplified_count : ℤ) ≤
        max 5 2) ∧
    (2 ≤ ([0, 3] : List ℕ).length ∧ ([0, 3] : List ℕ).length ≤ 3) := by
  constructor
  · exact (claim_C1 (fun _ _ => 0) (fun _ _ _ => 0) (fun _ _ => 0) (fun _ => true)).1
      ⟨"LineString", [0, 1]⟩ 5 true true 30 45 _ (by decide)
  · exact (claim_C1 (fun _ _ => (0 : ℚ)) (fun _ _ _ => 0) (fun _ _ => 0) (fun _ => true)).2
      [0, 1, 2, 3] 3 false false [0, 3] false (by decide) (by decide) (by decide)

/-- C2: the first and last output coordinates of `simplify_linestring`
equal the first and last input coordinates; and every index set produced
by `adaptive_simplification`, `douglas_peucker` and `detect_corners`
contains index 0 and index `length - 1`. -/
theorem claim_C2 (d2 : α → α → ℚ) (dist : α → α → α → ℚ) (bearing : α → α → ℚ)
    (coordOK : α → Bool) :
    (∀ (geometry : Geometry α) (max_coordinates : ℤ) (pc pv : Bool) (ma ct : ℚ)
        (r : SimpResult α),
      simplify_linestring d2 dist bearing coordOK geometry max_coordinates pc pv ma ct =
        some (.ok r) →
      r.geometry.coordinates.head? = geometry.coordinates.head? ∧
      r.geometry.coordinates.getLast? = geometry.coordinates.getLast?) ∧
    (∀ (coordinates : List α) (max_points : ℕ) (pc pv : Bool) (idxs : List ℕ) (suff : Bool),
      1 ≤ coordinates.length →
      adaptive_simplification dist bearing coordinates max_points pc pv = some (idxs, suff) →
      0 ∈ idxs ∧ coordinates.length - 1 ∈ idxs) ∧
    (∀ (coordinates : List α) (tolerance : ℚ) (I : List ℕ), 1 ≤ coordinates.length →
      douglas_peucker dist coordinates tolerance = some I →
      0 ∈ I ∧ coordinates.length - 1 ∈ I) ∧
    (∀ (coordinates : List α) (min_angle_change : ℚ),
      0 ∈ detect_corners bearing coordinates min_angle_change ∧
      coordinates.length - 1 ∈ detect_corners bearing coordinates min_angle_change) := by
  refine ⟨?_, ?_, ?_, ?_⟩
  · intro geometry max_coordinates pc pv ma ct r h
    obtain ⟨hval, hmc, hdisj⟩ := simplify_ok_shape d2 dist bearing coordOK geometry
      max_coordinates pc pv ma ct r h
    have hlen := validate_length coordOK geometry hval
    rcases hdisj with ⟨hfit, rfl⟩ | ⟨hgt, idxs, suff, hadapt, hgeo, hcount, horig⟩
    · exact ⟨rfl, rfl⟩
    · obtain ⟨h0, hlast, hsorted, hlt⟩ := adaptive_list_facts dist bearing geometry.coordinates
        max_coordinates.toNat pc pv idxs suff (by omega) hadapt
    
      have hne : geometry.coordinates ≠ [] := by
        intro hnil
        rw [hnil] at hlen
        simp at hlen
      rw [hgeo]
      constructor
      · rw [List.head?_map, sorted_head_eq_zero hsorted h0]
        rw [head?_eq_getD hne]
        rfl
      · rw [List.getLast?_map, sorted_getLast_eq (geometry.coordinates.length - 1) hsorted hlast
          (fun x hx => by have := hlt x hx; omega)]
        rw [getLast?_eq_getD hne]
        rfl
  · intro coordinates max_points pc pv idxs suff hn h
    obtain ⟨h0, hlast, -, -⟩ := adaptive_list_facts dist bearing coordinates max_points pc pv
      idxs suff hn h
    exact ⟨h0, hlast⟩
  · intro coordinates tolerance I hn h
    exact douglas_peucker_endpoints dist coordinates tolerance I hn h
  · intro coordinates min_angle_change
    exact ⟨detect_corners_zero_mem bearing coordinates min_angle_change,
      detect_corners_last_mem bearing coordinates min_angle_change⟩

theorem claim_C2_witness :
    (((⟨⟨"LineString", [7, 8]⟩, 2, 2, 0, 100, [], true⟩ : SimpResult ℕ)).geometry.coordinates.head? =
        ([7, 8] : List ℕ).head? ∧
      ((⟨⟨"LineString", [7, 8]⟩, 2, 2, 0, 100, [], true⟩ : SimpResult ℕ)).geometry.coordinates.getLast? =
        ([7, 8] : List ℕ).getLast?) ∧
    (0 ∈ ([0, 3] : List ℕ) ∧ 4 - 1 ∈ ([0, 3] : List ℕ)) ∧
    (0 ∈ ([0, 2] : List ℕ) ∧ 3 - 1 ∈ ([0, 2] : List ℕ)) ∧
    (0 ∈ detect_corners (fun _ _ => (0 : ℚ)) ([5, 6, 7] : List ℕ) 30 ∧
      3 - 1 ∈ detect_corners (fun _ _ => (0 : ℚ)) ([5, 6, 7] : List ℕ) 30) := by
  refine ⟨?_, ?_, ?_, ?_⟩
  · exact (claim_C2 (fun _ _ => 0) (fun _ _ _ => 0) (fun _ _ => 0) (fun _ => true)).1
      ⟨"LineString", [7, 8]⟩ 5 true true 30 45 _ (by decide)
  · exact (claim_C2 (fun _ _ => (0 : ℚ)) (fun _ _ _ => 0) (fun _ _ => 0) (fun _ => true)).2.1
      [0, 1, 2, 3] 3 false false [0, 3] false (by decide) (by decide)
  · exact (claim_C2 (fun _ _ => (0 : ℚ)) (fun _ _ _ => 0) (fun _ _ => 0) (fun _ => true)).2.2.1
      [4, 5, 6] 10 [0, 2] (by decide) (by decide)
  · exact (claim_C2 (fun _ _ => (0 : ℚ)) (fun _ _ _ => 0) (fun _ _ => 0) (fun _ => true)).2.2.2
      [5, 6, 7] 30

/-- C3: for a valid geometry whose coordinate count is at most the budget
(budget at least 2), `simplify_linestring` returns the input geometry
unchanged, with `reduction_ratio = 0.0`, `length_preserved = 100.0`,
`was_sufficient = true` and no warnings, raising no error. -/
theorem claim_C3 (d2 : α → α → ℚ) (dist : α → α → α → ℚ) (bearing : α → α → ℚ)
    (coordOK : α → Bool) (geometry : Geometry α) (max_coordinates : ℤ)
    (pc pv : Bool) (ma ct : ℚ)
    (hval : validate_geojson_linestring coordOK geometry = true)
    (hmc : 2 ≤ max_coordinates)
    (hfit : (geometry.coordinates.length : ℤ) ≤ max_coordinates) :
    simplify_linestring d2 dist bearing coordOK geometry max_coordinates pc pv ma ct =
      some (.ok ⟨geometry, geometry.coordinates.length, geometry.coordinates.length,
        0, 100, [], true⟩) := by
  simp only [simplify_linestring]
  rw [if_neg (by simp [hval]), if_neg (by omega), if_pos hfit]

theorem claim_C3_witness :
    simplify_linestring (fun _ _ => (0 : ℚ)) (fun _ _ _ => 0) (fun _ _ => 0) (fun _ => true)
      (⟨"LineString", [7, 8]⟩ : Geometry ℕ) 5 true true 30 45 =
      some (.ok ⟨⟨"LineString", [7, 8]⟩, 2, 2, 0, 100, [], true⟩) :=
  claim_C3 (fun _ _ => 0) (fun _ _ _ => 0) (fun _ _ => 0) (fun _ => true)
    ⟨"LineString", [7, 8]⟩ 5 true true 30 45 (by decide) (by decide) (by decide)

/-- C7: for a valid geometry and a budget below 2, `simplify_linestring`
fails with `InsufficientCoordinatesError` carrying `minimum_required = 2`
and `provided_limit` equal to the given budget.  In the embedded control
flow this branch is taken directly after validation, before any
simplification work (the identity branch, the length computation and the
adaptive stage are all further down the same `if` chain). -/
theorem claim_C7 (d2 : α → α → ℚ) (dist : α → α → α → ℚ) (bearing : α → α → ℚ)
    (coordOK : α → Bool) (geometry : Geometry α) (max_coordinates : ℤ)
    (pc pv : Bool) (ma ct : ℚ)
    (hval : validate_geojson_linestring coordOK geometry = true)
    (hmc : max_coordinates < 2) :
    simplify_linestring d2 dist bearing coordOK geometry max_coordinates pc pv ma ct =
      some (.error (.insufficientCoordinates
        ("max_coordinates must be at least 2 for a valid LineString") 2 max_coordinates)) := by
  simp only [simplify_linestring]
  rw [if_neg (by simp [hval]), if_pos hmc]

theorem claim_C7_witness :
    simplify_linestring (fun _ _ => (0 : ℚ)) (fun _ _ _ => 0) (fun _ _ => 0) (fun _ => true)
      (⟨"LineString", [7, 8]⟩ : Geometry ℕ) 1 true true 30 45 =
      some (.error (.insufficientCoordinates
        ("max_coordinates must be at least 2 for a valid LineString") 2 1)) :=
  claim_C7 (fun _ _ => 0) (fun _ _ _ => 0) (fun _ _ => 0) (fun _ => true)
    ⟨"LineString", [7, 8]⟩ 1 true true 30 45 (by decide) (by decide)

/-- C10: two calls to `simplify_linestring` that differ only in the
`min_angle_for_corners` and `curve_detection_threshold` arguments produce
identical results: the facade accepts the two parameters but never
forwards them, and the adaptive stage always runs `detect_corners` at the
default 30-degree threshold and `detect_curves` with window 5 and
threshold 45. -/
theorem claim_C10 (d2 : α → α → ℚ) (dist : α → α → α → ℚ) (bearing : α → α → ℚ)
    (coordOK : α → Bool) (geometry : Geometry α) (max_coordinates : ℤ)
    (pc pv : Bool) (ma1 ct1 ma2 ct2 : ℚ) :
    simplify_linestring d2 dist bearing coordOK geometry max_coordinates pc pv ma1 ct1 =
      simplify_linestring d2 dist bearing coordOK geometry max_coordinates pc pv ma2 ct2 :=
  rfl

theorem claim_C10_witness :
    simplify_linestring (fun _ _ => (0 : ℚ)) (fun _ _ _ => 0) (fun _ _ => 0) (fun _ => true)
      (⟨"LineString", [7, 8]⟩ : Geometry ℕ) 5 true true 10 20 =
      simplify_linestring (fun _ _ => (0 : ℚ)) (fun _ _ _ => 0) (fun _ _ => 0) (fun _ => true)
        (⟨"LineString", [7, 8]⟩ : Geometry ℕ) 5 true true 99 5 :=
  claim_C10 (fun _ _ => 0) (fun _ _ _ => 0) (fun _ _ => 0) (fun _ => true)
    ⟨"LineString", [7, 8]⟩ 5 true true 10 20 99 5

/-- C4 counterexample: on a 3-point polyline (shorter than twice the
default window 5), `detect_curves` returns `[0, 1, 2]` — all indices,
including the non-interior endpoints — not the empty list.  The short
branch returns before any bearing is computed, so the result is the same
for every bearing primitive. -/
theorem claim_C4_counterexample :
    detect_curves (fun _ _ => (0 : ℚ)) ([5, 6, 7] : List ℕ) 5 45 = [0, 1, 2] ∧
    detect_curves (fun _ _ => (0 : ℚ)) ([5, 6, 7] : List ℕ) 5 45 ≠ ([] : List ℕ) ∧
    0 ∈ detect_curves (fun _ _ => (0 : ℚ)) ([5, 6, 7] : List ℕ) 5 45 := by
  exact ⟨by decide, by decide, by decide⟩

/-- C4 amended: for every polyline of length at most twice the window
size, `detect_curves` returns the full index list `range(len)` (not the
empty list, and including the endpoints); for every longer polyline,
every returned index lies in `[window, length - window)`, hence is
interior whenever the window is positive. -/
theorem claim_C4 (bearing : α → α → ℚ) (coordinates : List α)
    (window_size : ℕ) (curve_threshold : ℚ) :
    (coordinates.length ≤ window_size * 2 →
      detect_curves bearing coordinates window_size curve_threshold =
        List.range coordinates.length) ∧
    (window_size * 2 < coordinates.length →
      ∀ i ∈ detect_curves bearing coordinates window_size curve_threshold,
        window_size ≤ i ∧ i < coordinates.length - window_size) :=
  ⟨detect_curves_of_short bearing coordinates window_size curve_threshold,
   detect_curves_of_long bearing coordinates window_size curve_threshold⟩

theorem claim_C4_witness :
    detect_curves (fun _ _ => (0 : ℚ)) ([5, 6, 7] : List ℕ) 5 45 = List.range 3 ∧
    (∀ i ∈ detect_curves (fun _ _ => (0 : ℚ))
        ([0, 1, 2, 3, 4, 5, 6, 7, 8, 9, 10] : List ℕ) 5 45,
      5 ≤ i ∧ i < 11 - 5) :=
  ⟨(claim_C4 (fun _ _ => 0) [5, 6, 7] 5 45).1 (by decide),
   (claim_C4 (fun _ _ => 0) [0, 1, 2, 3, 4, 5, 6, 7, 8, 9, 10] 5 45).2 (by decide)⟩

/-- C5: when the input exceeds the budget and the critical set (first and
last index plus the enabled corner and curve points) exceeds the budget,
`adaptive_simplification` recomputes corners at the stricter 60-degree
threshold, resets the critical set to `{first, last}`, adds the first
`budget - 2` entries of the stricter corner list (which is in ascending
index order), and returns this truncated set, sorted, with sufficiency
`false`. -/
theorem claim_C5 (dist : α → α → α → ℚ) (bearing : α → α → ℚ)
    (coordinates : List α) (max_points : ℕ) (pc pv : Bool)
    (hgt : max_points < coordinates.length)
    (hover : max_points < (adaptiveCritical bearing coordinates pc pv).card) :
    adaptive_simplification dist bearing coordinates max_points pc pv =
      some (sortedList (({0, coordinates.length - 1} : Finset ℕ) ∪
        ((detect_corners bearing coordinates 60).take (max_points - 2)).toFinset), false) := by
  simp only [adaptive_simplification]
  rw [if_neg (by omega), if_pos hover]

theorem claim_C5_witness :
    adaptive_simplification (fun _ _ _ => (0 : ℚ)) (fun _ _ => (0 : ℚ))
      ([0, 1, 2, 3, 4, 5] : List ℕ) 3 true true =
      some (sortedList (({0, 6 - 1} : Finset ℕ) ∪
        ((detect_corners (fun _ _ => (0 : ℚ)) ([0, 1, 2, 3, 4, 5] : List ℕ) 60).take
          (3 - 2)).toFinset), false) :=
  claim_C5 (fun _ _ _ => 0) (fun _ _ => 0) [0, 1, 2, 3, 4, 5] 3 true true
    (by decide) (by decide)

theorem sortedList_empty : sortedList (∅ : Finset ℕ) = [] := rfl

theorem toleranceSchedule_length : toleranceSchedule.length = 20 := rfl

theorem toleranceSchedule_getD (j : ℕ) (hj : j < 20) :
    toleranceSchedule.getD j 0 = (10 : ℚ) * (8 / 10) ^ j := by
  unfold toleranceSchedule
  rw [List.getD_eq_getElem?_getD, List.getElem?_map]
  rw [List.getElem?_range (by omega : j < 20)]
  rfl

theorem fillStage_first_fit (dist : α → α → α → ℚ) (coordinates : List α)
    (max_points remaining_budget : ℕ) (critical_points : Finset ℕ) :
    ∀ (ts : List ℚ) (i : ℕ) (dpi : List ℕ),
      i < ts.length →
      (∀ j < i, ∃ dpj : List ℕ,
        douglas_peucker dist coordinates (ts.getD j 0) = some dpj ∧
        max_points < (critical_points ∪ dpj.toFinset).card) →
      douglas_peucker dist coordinates (ts.getD i 0) = some dpi →
      (critical_points ∪ dpi.toFinset).card ≤ max_points →
      fillStage dist coordinates max_points remaining_budget critical_points ts =
        some (if 0 < min remaining_budget (dpi.toFinset \ critical_points).card then
          critical_points ∪ ((sortedList (dpi.toFinset \ critical_points)).take
            (min remaining_budget (dpi.toFinset \ critical_points).card)).toFinset
        else critical_points) := by
  intro ts
  induction ts with
  | nil =>
    intro i dpi hi
    simp at hi
  | cons t rest ih =>
    intro i dpi hi hbefore hdpi hfit
    cases i with
    | zero =>
      rw [List.getD_cons_zero] at hdpi
      rw [fillStage, hdpi]
      simp only
      rw [if_pos hfit]
    | succ j =>
      obtain ⟨dp0, hdp0, hover0⟩ := hbefore 0 (by omega)
      rw [List.getD_cons_zero] at hdp0
      rw [fillStage, hdp0]
      simp only
      rw [if_neg (by omega)]
      refine ih j dpi (by simpa using hi) ?_ ?_ hfit
      · intro j2 hj2
        obtain ⟨dpj, hdpj, hoverj⟩ := hbefore (j2 + 1) (by omega)
        rw [List.getD_cons_succ] at hdpj
        exact ⟨dpj, hdpj, hoverj⟩
      · rw [List.getD_cons_succ] at hdpi
        exact hdpi

/-- C6: in the fill stage (reached when the critical set fits the budget
and remaining budget is positive), Douglas-Peucker runs with tolerances
`10 * 0.8 ^ i` metres for `i = 0..19` in order, stopping at the first
tolerance whose result unioned with the critical set has at most
`max_points` elements; from the Douglas-Peucker indices not already
critical, the lowest `remainingBudget` of them in ascending index order
are added to the critical set (all of them, when fewer are available). -/
theorem claim_C6 (dist : α → α → α → ℚ) (bearing : α → α → ℚ)
    (coordinates : List α) (max_points : ℕ) (pc pv : Bool) (i : ℕ) (dpi : List ℕ)
    (hgt : max_points < coordinates.length)
    (hover : (adaptiveCritical bearing coordinates pc pv).card ≤ max_points)
    (hrb : 0 < max_points - (adaptiveCritical bearing coordinates pc pv).card)
    (hi : i < 20)
    (hdpi : douglas_peucker dist coordinates ((10 : ℚ) * (8 / 10) ^ i) = some dpi)
    (hbefore : ∀ j < i, ∃ dpj : List ℕ,
      douglas_peucker dist coordinates ((10 : ℚ) * (8 / 10) ^ j) = some dpj ∧
      max_points < ((adaptiveCritical bearing coordinates pc pv) ∪ dpj.toFinset).card)
    (hfit : ((adaptiveCritical bearing coordinates pc pv) ∪ dpi.toFinset).card ≤ max_points) :
    adaptive_simplification dist bearing coordinates max_points pc pv =
      some (sortedList ((adaptiveCritical bearing coordinates pc pv) ∪
          ((sortedList (dpi.toFinset \ adaptiveCritical bearing coordinates pc pv)).take
            (max_points - (adaptiveCritical bearing coordinates pc pv).card)).toFinset),
        decide (min (coordinates.length : ℚ) ((max_points : ℚ) * (8 / 10)) ≤
          (((adaptiveCritical bearing coordinates pc pv) ∪
            ((sortedList (dpi.toFinset \ adaptiveCritical bearing coordinates pc pv)).take
              (max_points - (adaptiveCritical bearing coordinates pc pv).card)).toFinset).card :
            ℚ))) := by
  have hfill := fillStage_first_fit dist coordinates max_points
    (max_points - (adaptiveCritical bearing coordinates pc pv).card)
    (adaptiveCritical bearing coordinates pc pv) toleranceSchedule i dpi
    (by rw [toleranceSchedule_length]; exact hi)
    (by intro j hj
        obtain ⟨dpj, hdpj, hoverj⟩ := hbefore j hj
        refine ⟨dpj, ?_, hoverj⟩
        rw [toleranceSchedule_getD j (by omega)]
        exact hdpj)
    (by rw [toleranceSchedule_getD i hi]; exact hdpi)
    hfit
  have hset : (if 0 < min (max_points - (adaptiveCritical bearing coordinates pc pv).card)
        (dpi.toFinset \ adaptiveCritical bearing coordinates pc pv).card then
      (adaptiveCritical bearing coordinates pc pv) ∪
        ((sortedList (dpi.toFinset \ adaptiveCritical bearing coordinates pc pv)).take
          (min (max_points - (adaptiveCritical bearing coordinates pc pv).card)
            (dpi.toFinset \ adaptiveCritical bearing coordinates pc pv).card)).toFinset
    else (adaptiveCritical bearing coordinates pc pv)) =
      (adaptiveCritical bearing coordinates pc pv) ∪
        ((sortedList (dpi.toFinset \ adaptiveCritical bearing coordinates pc pv)).take
          (max_points - (adaptiveCritical bearing coordinates pc pv).card)).toFinset := by
    by_cases hpos : 0 < min (max_points - (adaptiveCritical bearing coordinates pc pv).card)
        (dpi.toFinset \ adaptiveCritical bearing coordinates pc pv).card
    · rw [if_pos hpos]
      have htake : (sortedList (dpi.toFinset \ adaptiveCritical bearing coordinates pc pv)).take
          (min (max_points - (adaptiveCritical bearing coordinates pc pv).card)
            (dpi.toFinset \ adaptiveCritical bearing coordinates pc pv).card) =
          (sortedList (dpi.toFinset \ adaptiveCritical bearing coordinates pc pv)).take
            (max_points - (adaptiveCritical bearing coordinates pc pv).card) := by
        apply List.take_eq_take.mpr
        rw [length_sortedList]
        omega
      rw [htake]
    · rw [if_neg hpos]
      have hzero : (dpi.toFinset \ adaptiveCritical bearing coordinates pc pv).card = 0 := by
        omega
      rw [Finset.card_eq_zero.mp hzero, sortedList_empty]
      simp
  simp only [adaptive_simplification]
  rw [if_neg (by omega), if_neg (by omega), if_pos hrb, hfill]
  rw [Option.map_some', hset]

theorem claim_C6_witness :
    adaptive_simplification (fun p _ _ => if p = 2 then (100 : ℚ) else 0) (fun _ _ => (0 : ℚ))
      ([0, 1, 2, 3, 4] : List ℕ) 4 false false =
      some (sortedList ((adaptiveCritical (fun _ _ => (0 : ℚ)) ([0, 1, 2, 3, 4] : List ℕ)
          false false) ∪
          ((sortedList (([0, 2, 4] : List ℕ).toFinset \
            adaptiveCritical (fun _ _ => (0 : ℚ)) ([0, 1, 2, 3, 4] : List ℕ) false false)).take
            (4 - (adaptiveCritical (fun _ _ => (0 : ℚ)) ([0, 1, 2, 3, 4] : List ℕ)
              false false).card)).toFinset),
        decide (min ((5 : ℕ) : ℚ) (((4 : ℕ) : ℚ) * (8 / 10)) ≤
          (((adaptiveCritical (fun _ _ => (0 : ℚ)) ([0, 1, 2, 3, 4] : List ℕ) false false) ∪
            ((sortedList (([0, 2, 4] : List ℕ).toFinset \
              adaptiveCritical (fun _ _ => (0 : ℚ)) ([0, 1, 2, 3, 4] : List ℕ) false false)).take
              (4 - (adaptiveCritical (fun _ _ => (0 : ℚ)) ([0, 1, 2, 3, 4] : List ℕ)
                false false).card)).toFinset).card : ℚ))) :=
  claim_C6 (fun p _ _ => if p = 2 then (100 : ℚ) else 0) (fun _ _ => (0 : ℚ))
    [0, 1, 2, 3, 4] 4 false false 0 [0, 2, 4]
    (by decide) (by decide) (by decide) (by decide) (by decide)
    (fun j hj => absurd hj (Nat.not_lt_zero j)) (by decide)

theorem previewLoop_spec (d2 : α → α → ℚ) (dist : α → α → α → ℚ) (bearing : α → α → ℚ)
    (coordOK : α → Bool) (geometry : Geometry α) :
    ∀ (opts : List ℤ) (acc res : List (ℤ × PreviewEntry)),
      previewLoop d2 dist bearing coordOK geometry opts acc = some res →
      res.length = acc.length + opts.length ∧
      (∀ j, j < acc.length →
        res.getD j (0, .failure "" "") = acc.getD j (0, .failure "" "")) ∧
      (∀ k, k < opts.length →
        ∃ outcome : Except SimpError (SimpResult α),
          simplify_linestring d2 dist bearing coordOK geometry (opts.getD k 0)
            true true 30 45 = some outcome ∧
          res.getD (acc.length + k) (0, .failure "" "") =
            (opts.getD k 0, capturePreview outcome)) := by
  intro opts
  induction opts with
  | nil =>
    intro acc res h
    rw [previewLoop] at h
    cases h
    refine ⟨by simp, fun j hj => rfl, ?_⟩
    intro k hk
    simp at hk
  | cons limit rest ih =>
    intro acc res h
    rw [previewLoop] at h
    rcases hout : simplify_linestring d2 dist bearing coordOK geometry limit true true 30 45
      with - | outcome
    · rw [hout] at h; cases h
    · rw [hout] at h
      obtain ⟨hlen, hacc, hrest⟩ := ih (acc ++ [(limit, capturePreview outcome)]) res h
      rw [List.length_append, List.length_singleton] at hlen
      refine ⟨by rw [hlen]; simp; omega, ?_, ?_⟩
      · intro j hj
        rw [hacc j (by simp; omega), List.getD_append _ _ _ _ hj]
      · intro k hk
        cases k with
        | zero =>
          refine ⟨outcome, by rw [List.getD_cons_zero]; exact hout, ?_⟩
          rw [Nat.add_zero]
          have h1 := hacc acc.length (by simp)
          rw [h1, List.getD_append_right _ _ _ _ (le_refl _)]
          simp
        | succ k2 =>
          obtain ⟨outcome2, hout2, hres2⟩ := hrest k2 (by simpa using hk)
          refine ⟨outcome2, ?_, ?_⟩
          · rw [List.getD_cons_succ]
            exact hout2
          · rw [List.getD_cons_succ]
            rw [← hres2]
            congr 1
            simp
            omega

/-- C9: `get_simplification_preview` evaluates `simplify_linestring` once
per budget in the given list (with the default optional arguments) and
maps each budget either to its metrics summary or to the type name and
message of the failure it raised; a failure for one budget never prevents
the remaining budgets from being evaluated — the result has one entry for
every budget in the list, in order. -/
theorem claim_C9 (d2 : α → α → ℚ) (dist : α → α → α → ℚ) (bearing : α → α → ℚ)
    (coordOK : α → Bool) (geometry : Geometry α) (max_coordinates_options : List ℤ)
    (res : List (ℤ × PreviewEntry))
    (h : get_simplification_preview d2 dist bearing coordOK geometry
      max_coordinates_options = some res) :
    res.length = max_coordinates_options.length ∧
    ∀ k, k < max_coordinates_options.length →
      ∃ outcome : Except SimpError (SimpResult α),
        simplify_linestring d2 dist bearing coordOK geometry
          (max_coordinates_options.getD k 0) true true 30 45 = some outcome ∧
        res.getD k (0, .failure "" "") =
          (max_coordinates_options.getD k 0, capturePreview outcome) := by
  obtain ⟨hlen, -, hall⟩ := previewLoop_spec d2 dist bearing coordOK geometry
    max_coordinates_options [] res h
  refine ⟨by simpa using hlen, ?_⟩
  intro k hk
  simpa using hall k hk

theorem claim_C9_witness :
    ∃ res : List (ℤ × PreviewEntry),
      get_simplification_preview (fun _ _ => (0 : ℚ)) (fun _ _ _ => 0) (fun _ _ => 0)
        (fun _ => true) (⟨"LineString", [0, 1, 2, 3, 4, 5]⟩ : Geometry ℕ) [1, 5] = some res ∧
      res.length = ([1, 5] : List ℤ).length ∧
      ∀ k, k < ([1, 5] : List ℤ).length →
        ∃ outcome : Except SimpError (SimpResult ℕ),
          simplify_linestring (fun _ _ => (0 : ℚ)) (fun _ _ _ => 0) (fun _ _ => 0)
            (fun _ => true) (⟨"LineString", [0, 1, 2, 3, 4, 5]⟩ : Geometry ℕ)
            (([1, 5] : List ℤ).getD k 0) true true 30 45 = some outcome ∧
          res.getD k (0, .failure "" "") =
            (([1, 5] : List ℤ).getD k 0, capturePreview outcome) := by
  refine ⟨_, rfl, ?_⟩
  exact claim_C9 (fun _ _ => 0) (fun _ _ _ => 0) (fun _ _ => 0) (fun _ => true)
    ⟨"LineString", [0, 1, 2, 3, 4, 5]⟩ [1, 5] _ rfl

/-! ### Infrastructure for the idempotence of Douglas-Peucker -/

theorem sorted_lt_getD_mono {I : List ℕ} (hI : I.Sorted (· < ·)) {k l : ℕ}
    (hkl : k < l) (hl : l < I.length) : I.getD k 0 < I.getD l 0 := by
  have hk : k < I.length := lt_trans hkl hl
  rw [List.getD_eq_getElem?_getD, List.getD_eq_getElem?_getD,
    List.getElem?_eq_getElem hk, List.getElem?_eq_getElem hl]
  simp only [Option.getD_some]
  have := List.pairwise_iff_get.mp hI ⟨k, hk⟩ ⟨l, hl⟩ hkl
  simpa using this

theorem getD_map_getD (coordinates : List α) (I : List ℕ) (j : ℕ) (hj : j < I.length) :
    (I.map (coordinates.getD · default)).getD j default =
      coordinates.getD (I.getD j 0) default := by
  have hIj : I.getD j 0 = I[j] := by
    rw [List.getD_eq_getElem?_getD, List.getElem?_eq_getElem hj]
    rfl
  rw [List.getD_eq_getElem?_getD, List.getElem?_map, List.getElem?_eq_getElem hj, hIj]
  rfl

theorem map_getD_range (l : List α) :
    (List.range l.length).map (l.getD · default) = l := by
  apply List.ext_getElem
  · simp
  · intro i h1 h2
    simp only [List.getElem_map, List.getElem_range, List.getD_eq_getElem?_getD,
      List.getElem?_eq_getElem h2, Option.getD_some]

theorem natList_head_getD {l : List ℕ} (h : l ≠ []) : l.head? = some (l.getD 0 0) := by
  cases l with
  | nil => exact absurd rfl h
  | cons a t => rfl

theorem natList_getLast_getD {l : List ℕ} (h : l ≠ []) :
    l.getLast? = some (l.getD (l.length - 1) 0) := by
  have := getLast?_eq_getD (α := ℕ) h
  exact this

theorem sortedList_Icc_zero (m : ℕ) (hm : 1 ≤ m) :
    sortedList (Finset.Icc 0 (m - 1)) = List.range m := by
  have : Finset.Icc 0 (m - 1) = Finset.range m := by
    ext x
    simp only [Finset.mem_Icc, Finset.mem_range]
    omega
  rw [this, sortedList_eq_sort, Finset.sort_range]

/-- Core of the Douglas-Peucker idempotence argument.  Let `I` be a
strictly increasing position-to-index table (the sorted output of a first
`dp_recursive` run) and let the second distance table agree with the first
through `I`.  If the first run on the interval `[I a, I b]` returned
exactly the retained indices `{I k | a ≤ k ≤ b}`, then the second run on
the positions `[a, b]` keeps every position.  The split index of the first
run is retained and is the unique first maximum among the retained points,
so the second run splits at exactly the corresponding position, and the
recursion preserves the invariant on both halves. -/
theorem dpRec_reduce (D1 D2 : ℕ → ℕ → ℕ → ℚ) (tolerance : ℚ) (I : List ℕ)
    (hmono : ∀ k l, k < l → l < I.length → I.getD k 0 < I.getD l 0)
    (hD : ∀ j a b, j < I.length → a < I.length → b < I.length →
      D2 j a b = D1 (I.getD j 0) (I.getD a 0) (I.getD b 0)) :
    ∀ (N a b : ℕ), b - a ≤ N → a < b → b < I.length →
    ∀ (fuel1 : ℕ) (S : Finset ℕ),
      dpRec D1 tolerance fuel1 (I.getD a 0) (I.getD b 0) = some S →
      S = (Finset.Icc a b).image (fun k => I.getD k 0) →
    ∀ (fuel2 : ℕ), b - a < fuel2 →
      dpRec D2 tolerance fuel2 a b = some (Finset.Icc a b) := by
  intro N
  induction N with
  | zero =>
    intro a b hba hab
    exact absurd hba (by omega)
  | succ N ih =>
    intro a b hba hab hbI fuel1 S h1 hS fuel2 hf2
    rcases Nat.lt_or_ge fuel2 1 with hf20 | hf21
    · omega
    obtain ⟨f2, rfl⟩ : ∃ f2, fuel2 = f2 + 1 := ⟨fuel2 - 1, by omega⟩
    by_cases hsmall : b - a ≤ 1
    · rw [dpRec, if_pos hsmall]
      have hb : b = a + 1 := by omega
      subst hb
      congr 1
      ext x
      simp only [Finset.mem_insert, Finset.mem_singleton, Finset.mem_Icc]
      omega
    · -- the interval of the first run also has length at least 2
      have haI : a < I.length := by omega
      have ha1I : a + 1 < I.length := by omega
      have hgap : I.getD a 0 + 2 ≤ I.getD b 0 := by
        have h1m := hmono a (a + 1) (by omega) ha1I
        have h2m := hmono (a + 1) b (by omega) hbI
        omega
      have hbig : ¬ (I.getD b 0 - I.getD a 0 ≤ 1) := by omega
      rcases Nat.lt_or_ge fuel1 1 with hfa | hfb
      · interval_cases fuel1
        cases h1
      obtain ⟨f1, rfl⟩ : ∃ f1, fuel1 = f1 + 1 := ⟨fuel1 - 1, by omega⟩
      have h1copy := h1
      simp only [dpRec] at h1
      rw [if_neg hbig] at h1
      rcases hml : maxLoop (fun i => D1 i (I.getD a 0) (I.getD b 0))
          (List.range' (I.getD a 0 + 1) (I.getD b 0 - I.getD a 0 - 1)) (0, I.getD a 0)
        with ⟨md, mi⟩
      rw [hml] at h1
      obtain ⟨-, hub1, hdisj⟩ := maxLoop_spec (fun i => D1 i (I.getD a 0) (I.getD b 0))
        (I.getD b 0 - I.getD a 0 - 1) (I.getD a 0 + 1) 0 (I.getD a 0) md mi hml
      by_cases htol : tolerance < md
      · rw [if_pos htol] at h1
        rcases hdisj with ⟨hmd0, hmi0⟩ | ⟨hmi1, hmi2, hfmi, hmd0, hbef⟩
        · -- the first run would diverge: contradiction with `h1copy`
          exfalso
          have hstuck := dpRec_stuck D1 tolerance (I.getD a 0) (I.getD b 0) hbig
            (by rw [hml]; exact hmi0) (by rw [hml]; exact htol) (f1 + 1)
          rw [hstuck] at h1copy
          cases h1copy
        · -- proper split of the first run
          simp only at h1
          rcases hL : dpRec D1 tolerance f1 (I.getD a 0) mi with - | L
          · rw [hL] at h1; cases h1
          rcases hR : dpRec D1 tolerance f1 mi (I.getD b 0) with - | R
          · rw [hL, hR] at h1; cases h1
          rw [hL, hR] at h1
          have hSLR : S = L ∪ R := by
            cases h1; rfl
          have hmi_lt : mi < I.getD b 0 := by omega
          have hmi_gt : I.getD a 0 < mi := by omega
          -- the split index is retained, hence is `I k` for an interior position `k`
          have hmiS : mi ∈ S := by
            rw [hSLR]
            exact Finset.mem_union_left _ (dpRec_endpoints D1 tolerance f1 _ _ L hL).2
          rw [hS] at hmiS
          obtain ⟨k, hk, hgk⟩ := Finset.mem_image.mp hmiS
          simp only [Finset.mem_Icc] at hk
          have hak : a < k := by
            rcases Nat.lt_or_ge a k with h | h
            · exact h
            · exfalso
              have : k = a := by omega
              rw [this] at hgk
              omega
          have hkb : k < b := by
            rcases Nat.lt_or_ge k b with h | h
            · exact h
            · exfalso
              have : k = b := by omega
              rw [this] at hgk
              omega
          have hkI : k < I.length := by omega
          -- characterize the two halves as images of the split position ranges
          have hLsub := dpRec_subset D1 tolerance f1 (I.getD a 0) mi L (by omega) hL
          have hRsub := dpRec_subset D1 tolerance f1 mi (I.getD b 0) R (by omega) hR
          have hLend := dpRec_endpoints D1 tolerance f1 (I.getD a 0) mi L hL
          have hRend := dpRec_endpoints D1 tolerance f1 mi (I.getD b 0) R hR
          have hLimg : L = (Finset.Icc a k).image (fun j => I.getD j 0) := by
            ext x
            constructor
            · intro hx
              have hxS : x ∈ S := by rw [hSLR]; exact Finset.mem_union_left _ hx
              rw [hS] at hxS
              obtain ⟨j, hj, hgj⟩ := Finset.mem_image.mp hxS
              simp only [Finset.mem_Icc] at hj
              have hxmi : x ≤ mi := by
                have := hLsub hx
                simp only [Finset.mem_Icc] at this
                omega
              have hjk : j ≤ k := by
                by_contra hjk
                have := hmono k j (by omega) (by omega)
                omega
              exact Finset.mem_image.mpr ⟨j, Finset.mem_Icc.mpr ⟨hj.1, hjk⟩, hgj⟩
            · intro hx
              obtain ⟨j, hj, hgj⟩ := Finset.mem_image.mp hx
              simp only [Finset.mem_Icc] at hj
              have hxS : x ∈ S := by
                rw [hS]
                exact Finset.mem_image.mpr ⟨j, Finset.mem_Icc.mpr ⟨hj.1, by omega⟩, hgj⟩
              rw [hSLR] at hxS
              rcases Finset.mem_union.mp hxS with hx2 | hx2
              · exact hx2
              · have hxmi : mi ≤ x := by
                  have := hRsub hx2
                  simp only [Finset.mem_Icc] at this
                  omega
                have hxk : x ≤ mi := by
                  rcases Nat.eq_or_lt_of_le hj.2 with rfl | hjlt
                  · omega
                  · have := hmono j k hjlt hkI
                    omega
                have : x = mi := by omega
                rw [this]
                exact hLend.2
          have hRimg : R = (Finset.Icc k b).image (fun j => I.getD j 0) := by
            ext x
            constructor
            · intro hx
              have hxS : x ∈ S := by rw [hSLR]; exact Finset.mem_union_right _ hx
              rw [hS] at hxS
              obtain ⟨j, hj, hgj⟩ := Finset.mem_image.mp hxS
              simp only [Finset.mem_Icc] at hj
              have hxmi : mi ≤ x := by
                have := hRsub hx
                simp only [Finset.mem_Icc] at this
                omega
              have hjk : k ≤ j := by
                by_contra hjk
                have := hmono j k (by omega) hkI
                omega
              exact Finset.mem_image.mpr ⟨j, Finset.mem_Icc.mpr ⟨hjk, hj.2⟩, hgj⟩
            · intro hx
              obtain ⟨j, hj, hgj⟩ := Finset.mem_image.mp hx
              simp only [Finset.mem_Icc] at hj
              have hxS : x ∈ S := by
                rw [hS]
                exact Finset.mem_image.mpr ⟨j, Finset.mem_Icc.mpr ⟨by omega, hj.2⟩, hgj⟩
              rw [hSLR] at hxS
              rcases Finset.mem_union.mp hxS with hx2 | hx2
              · have hxmi : x ≤ mi := by
                  have := hLsub hx2
                  simp only [Finset.mem_Icc] at this
                  omega
                have hxk : mi ≤ x := by
                  rcases Nat.eq_or_lt_of_le hj.1 with rfl | hjlt
                  · omega
                  · have := hmono k j hjlt (by omega)
                    omega
                have : x = mi := by omega
                rw [this]
                exact hRend.1
              · exact hx2
          -- the second run finds the same maximum at the corresponding position
          have hml2 : maxLoop (fun j => D2 j a b) (List.range' (a + 1) (b - a - 1)) (0, a) =
              (md, k) := by
            apply maxLoop_eq (fun j => D2 j a b) a b k md hak hkb
            · rw [hD k a b hkI haI hbI, hgk]
              exact hfmi
            · exact hmd0
            · intro j hja hjb
              rw [hD j a b (by omega) haI hbI]
              apply hub1
              · have := hmono a j hja (by omega)
                omega
              · have := hmono j b hjb hbI
                omega
            · intro j hja hjk
              rw [hD j a b (by omega) haI hbI]
              apply hbef
              · have := hmono a j hja (by omega)
                omega
              · have := hmono j k hjk hkI
                omega
          rw [dpRec, if_neg hsmall, hml2]
          simp only
          rw [if_pos htol]
          have hrecL := ih a k (by omega) hak (by omega) f1 L
            (by rw [← hgk] at hL; exact hL) hLimg f2 (by omega)
          have hrecR := ih k b (by omega) hkb hbI f1 R
            (by rw [← hgk] at hR; exact hR) hRimg f2 (by omega)
          rw [hrecL, hrecR]
          simp only
          congr 1
          ext x
          simp only [Finset.mem_union, Finset.mem_Icc]
          omega
      · -- the first run collapsed the whole interval: impossible, since the
        -- retained set has an interior element
        exfalso
        rw [if_neg htol] at h1
        have hSeq : S = {I.getD a 0, I.getD b 0} := by
          cases h1; rfl
        have hmem : I.getD (a + 1) 0 ∈ S := by
          rw [hS]
          exact Finset.mem_image.mpr ⟨a + 1, Finset.mem_Icc.mpr ⟨by omega, by omega⟩, rfl⟩
        rw [hSeq] at hmem
        simp only [Finset.mem_insert, Finset.mem_singleton] at hmem
        have hlow := hmono a (a + 1) (by omega) ha1I
        have hhigh := hmono (a + 1) b (by omega) hbI
        rcases hmem with h | h <;> omega

theorem natList_getD_eq_getElem {l : List ℕ} {k : ℕ} (hk : k < l.length) :
    l.getD k 0 = l[k] := by
  rw [List.getD_eq_getElem?_getD, List.getElem?_eq_getElem hk]
  rfl

/-- C8: `douglas_peucker` is idempotent at a fixed tolerance.  Whenever a
run terminates and returns the index list `I`, running `douglas_peucker`
again, with the same tolerance, on the reduced polyline built from `I`
keeps every point: it returns all indices `0..|I|-1` of the reduced
polyline. -/
theorem claim_C8 (dist : α → α → α → ℚ) (coordinates : List α) (tolerance : ℚ)
    (I : List ℕ) (h : douglas_peucker dist coordinates tolerance = some I) :
    douglas_peucker dist (I.map (coordinates.getD · default)) tolerance =
      some (List.range I.length) := by
  by_cases hn : coordinates.length ≤ 2
  · unfold douglas_peucker at h
    rw [if_pos hn] at h
    simp only [Option.some.injEq] at h
    rw [← h, map_getD_range]
    unfold douglas_peucker
    rw [if_pos hn]
    rw [List.length_range]
  · unfold douglas_peucker at h
    rw [if_neg hn] at h
    rcases hS : dpRec (dpDist dist coordinates) tolerance coordinates.length 0
        (coordinates.length - 1) with - | S
    · rw [hS] at h; cases h
    rw [hS] at h
    simp only [Option.map_some', Option.some.injEq] at h
    have hI : I = sortedList S := h.symm
    subst hI
    have hslt : (sortedList S).Sorted (· < ·) := sortedList_sorted_lt S
    have hsle : (sortedList S).Sorted (· ≤ ·) := sortedList_sorted_le S
    have hItoF : (sortedList S).toFinset = S := sortedList_toFinset S
    have hIlen : (sortedList S).length = S.card := length_sortedList S
    have hsub := dpRec_subset (dpDist dist coordinates) tolerance coordinates.length 0
      (coordinates.length - 1) S (by omega) hS
    have hend := dpRec_endpoints (dpDist dist coordinates) tolerance coordinates.length 0
      (coordinates.length - 1) S hS
    have hm2 : 2 ≤ (sortedList S).length := by
      rw [hIlen]
      have hne : (0 : ℕ) ≠ coordinates.length - 1 := by omega
      calc 2 = ({0, coordinates.length - 1} : Finset ℕ).card := (Finset.card_pair hne).symm
        _ ≤ S.card := Finset.card_le_card (by
            intro x hx
            simp only [Finset.mem_insert, Finset.mem_singleton] at hx
            rcases hx with rfl | rfl
            · exact hend.1
            · exact hend.2)
    have hIne : sortedList S ≠ [] := by
      intro hnil
      rw [hnil] at hm2
      simp at hm2
    have hub : ∀ x ∈ sortedList S, x ≤ coordinates.length - 1 := by
      intro x hx
      have := hsub (mem_sortedList.mp hx)
      simp only [Finset.mem_Icc] at this
      omega
    have hg0 : (sortedList S).getD 0 0 = 0 := by
      have h1 := sorted_head_eq_zero hsle (mem_sortedList.mpr hend.1)
      have h2 := natList_head_getD hIne
      rw [h1] at h2
      exact (Option.some.injEq _ _ ▸ h2).symm
    have hgm : (sortedList S).getD ((sortedList S).length - 1) 0 = coordinates.length - 1 := by
      have h1 := sorted_getLast_eq (coordinates.length - 1) hsle
        (mem_sortedList.mpr hend.2) hub
      have h2 := natList_getLast_getD hIne
      rw [h1] at h2
      exact (Option.some.injEq _ _ ▸ h2).symm
    have hSimg : S = (Finset.Icc 0 ((sortedList S).length - 1)).image
        (fun k => (sortedList S).getD k 0) := by
      ext x
      constructor
      · intro hx
        have hxI : x ∈ sortedList S := mem_sortedList.mpr hx
        obtain ⟨k, hk, hgetk⟩ := List.mem_iff_getElem.mp hxI
        refine Finset.mem_image.mpr ⟨k, Finset.mem_Icc.mpr ⟨by omega, by omega⟩, ?_⟩
        rw [natList_getD_eq_getElem hk]
        exact hgetk
      · intro hx
        obtain ⟨k, hk, hgetk⟩ := Finset.mem_image.mp hx
        simp only [Finset.mem_Icc] at hk
        have hklen : k < (sortedList S).length := by omega
        rw [natList_getD_eq_getElem hklen] at hgetk
        rw [← hgetk]
        exact mem_sortedList.mp (List.getElem_mem _)
    have hlen2 : ((sortedList S).map (coordinates.getD · default)).length =
        (sortedList S).length := List.length_map _ _
    by_cases hm : (sortedList S).length ≤ 2
    · unfold douglas_peucker
      rw [if_pos (by rw [hlen2]; exact hm)]
      congr 1
      rw [hlen2]
    · unfold douglas_peucker
      rw [if_neg (by rw [hlen2]; exact hm)]
      have hmono : ∀ k l, k < l → l < (sortedList S).length →
          (sortedList S).getD k 0 < (sortedList S).getD l 0 := by
        intro k l hkl hl
        exact sorted_lt_getD_mono hslt hkl hl
      have hDeq : ∀ j a b, j < (sortedList S).length → a < (sortedList S).length →
          b < (sortedList S).length →
          dpDist dist ((sortedList S).map (coordinates.getD · default)) j a b =
            dpDist dist coordinates ((sortedList S).getD j 0) ((sortedList S).getD a 0)
              ((sortedList S).getD b 0) := by
        intro j a b hj ha hb
        unfold dpDist
        rw [getD_map_getD coordinates (sortedList S) j hj,
          getD_map_getD coordinates (sortedList S) a ha,
          getD_map_getD coordinates (sortedList S) b hb]
      have hmain := dpRec_reduce (dpDist dist coordinates)
        (dpDist dist ((sortedList S).map (coordinates.getD · default))) tolerance
        (sortedList S) hmono hDeq (sortedList S).length 0 ((sortedList S).length - 1)
        (by omega) (by omega) (by omega) coordinates.length S
        (by rw [hg0, hgm]; exact hS) hSimg (sortedList S).length (by omega)
      rw [hlen2, hmain, Option.map_some',
        sortedList_Icc_zero ((sortedList S).length) (by omega)]

theorem claim_C8_witness :
    douglas_peucker (fun p _ _ => if p = 2 then (100 : ℚ) else 0)
      (([0, 2, 4] : List ℕ).map (([0, 1, 2, 3, 4] : List ℕ).getD · default)) 10 =
      some (List.range ([0, 2, 4] : List ℕ).length) :=
  claim_C8 (fun p _ _ => if p = 2 then (100 : ℚ) else 0) [0, 1, 2, 3, 4] 10 [0, 2, 4]
    (by decide)
